import Mathlib

/-!
Verification of the resume-parsing core of `smart-job-match-ai`
(`src/parsers/utils.py` and `src/parsers/resume_parser.py`).

Python strings are modelled as `String` (a structure around `List Char`);
all operations are implemented over the underlying character list.
Character classes (`\w`, `\s`, `\d` of Python's `re`, and `str.strip`,
`str.lower`) are modelled by their ASCII meaning, which coincides with
Python's on ASCII text; code points are compared via `Char.toNat`.
Regular expressions of the source are hand-compiled to explicit scanners
that implement the leftmost-match / greedy semantics of Python's `re`
for the concrete patterns appearing in the source.
-/

/-- ASCII whitespace, Python's `\s` restricted to ASCII:
space, tab, newline, carriage return, vertical tab, form feed. -/
def isSpaceA (c : Char) : Bool :=
  c.toNat = 32 || c.toNat = 9 || c.toNat = 10 || c.toNat = 13 || c.toNat = 11 || c.toNat = 12

/-- ASCII decimal digit, Python's `\d` restricted to ASCII. -/
def isDigitA (c : Char) : Bool := 48 ≤ c.toNat && c.toNat ≤ 57

/-- ASCII word character, Python's `\w` restricted to ASCII:
letters, digits and underscore. -/
def isWordA (c : Char) : Bool :=
  (48 ≤ c.toNat && c.toNat ≤ 57) || (65 ≤ c.toNat && c.toNat ≤ 90) ||
  (97 ≤ c.toNat && c.toNat ≤ 122) || c.toNat = 95

/-- ASCII lower-casing, Python's `str.lower` / `re.IGNORECASE` folding
restricted to ASCII: map `A`..`Z` to `a`..`z`, leave the rest alone. -/
def lowerA (c : Char) : Char :=
  if 65 ≤ c.toNat ∧ c.toNat ≤ 90 then Char.ofNat (c.toNat + 32) else c

/-- Python `str.lower` on a character list. -/
def pyLower (l : List Char) : List Char := l.map lowerA

/-- Python `str.lstrip()` on a character list. -/
def pyLstrip (l : List Char) : List Char := l.dropWhile isSpaceA

/-- Python `str.strip()` on a character list. -/
def pyStrip (l : List Char) : List Char :=
  ((l.dropWhile isSpaceA).reverse.dropWhile isSpaceA).reverse

/-- Python `str.strip()` on a string. -/
def pyStripS (s : String) : String := ⟨pyStrip s.data⟩

/-- Python `str.split(sep)` for a one-character separator. -/
def splitOnChar (sep : Char) : List Char → List (List Char)
  | [] => [[]]
  | c :: cs =>
    if c = sep then [] :: splitOnChar sep cs
    else
      match splitOnChar sep cs with
      | h :: t => (c :: h) :: t
      | [] => [[c]]

/-- Python's substring test `needle in hay` on character lists. -/
def containsSub (hay needle : List Char) : Bool :=
  hay.tails.any (fun t => needle.isPrefixOf t)

/-- The character class `[\w\.-]` of the email regexes. -/
def isEmailChar (c : Char) : Bool := isWordA c || c = '.' || c = '-'

/-- Is this optional character absent or a non-word character (the
right-hand `\b` test after a literal that ends in a word character)? -/
def optNonWord : Option Char → Bool
  | none => true
  | some d => !isWordA d

/-- The typographic-quote normalization shared by both normalizers:
`re.sub(r'[“”]', '"', ...)` and `re.sub(r"[‘’]", "'", ...)` — map curly
double quotes to a straight double quote (codepoint 34) and curly single
quotes to a straight apostrophe (codepoint 39). -/
def quoteMap (c : Char) : Char :=
  if c = Char.ofNat 0x201C || c = Char.ofNat 0x201D then Char.ofNat 34
  else if c = Char.ofNat 0x2018 || c = Char.ofNat 0x2019 then Char.ofNat 39
  else c

/-- Case-insensitive character comparison (`re.IGNORECASE`, ASCII). -/
def ciChar (a b : Char) : Bool := lowerA a = lowerA b

/-- Does `l` start with the literal `ks`, compared case-insensitively? -/
def ciMatches : List Char → List Char → Bool
  | [], _ => true
  | _ :: _, [] => false
  | k :: ks, c :: cs => ciChar k c && ciMatches ks cs

/-- Absence of leading and trailing whitespace (the texts on which
Python's `str.strip` is the identity). -/
def edgeOk (l : List Char) : Prop :=
  (∀ c, l.head? = some c → isSpaceA c = false)
  ∧ (∀ c, l.getLast? = some c → isSpaceA c = false)

namespace Utils

/-! Definitions embedded from `src/parsers/utils.py`. -/

/-- `re.sub(r'\r\n|\r', '\n', text)`: scanning left to right, replace a
`\r\n` pair (preferred, the first alternative) or a lone `\r` by a
single `\n`. -/
def normNewlines : List Char → List Char
  | [] => []
  | [c] => if c = '\r' then ['\n'] else [c]
  | c :: d :: rest =>
    if c = '\r' then
      if d = '\n' then '\n' :: normNewlines rest
      else '\n' :: normNewlines (d :: rest)
    else c :: normNewlines (d :: rest)

/-- `clean_text` from `utils.py`: normalize newline variants, normalize
typographic quotes, and strip. -/
def clean_text (text : String) : String :=
  ⟨pyStrip ((normNewlines text.data).map quoteMap)⟩

/-- The bullet glyph `•`. -/
def bulletGlyph : Char := Char.ofNat 0x2022

/-- Is `c` one of the bullet markers `-`, `*`, `•`
(the character class `[\-\*•]`)? -/
def isBulletChar (c : Char) : Bool := c = '-' || c = '*' || c = bulletGlyph

/-- `ln.lstrip().startswith(('-', '*', '•'))`:
the bullet test used by `parse_experience`, `parse_projects`
and `parse_publications`. -/
def startsWithBullet (ln : String) : Bool :=
  match pyLstrip ln.data with
  | [] => false
  | c :: _ => isBulletChar c

/-- `strip_bullet` from `utils.py`:
`re.sub(r'^[\-\*•]\s*', '', line).strip()` — remove one leading
bullet character (anchored at the very start of the raw line) together
with the whitespace following it, then strip. -/
def strip_bullet (line : String) : String :=
  match line.data with
  | c :: rest =>
    if isBulletChar c then ⟨pyStrip (rest.dropWhile isSpaceA)⟩
    else ⟨pyStrip line.data⟩
  | [] => ⟨pyStrip line.data⟩

/-- One experience entry produced by `parse_experience`:
the Python dict `{'title': ..., 'details': [...]}`. -/
structure ExperienceEntry where
  title : String
  details : List String
deriving DecidableEq, Repr

/-- The loop of `parse_experience`: `experiences` is the accumulator,
`current` the in-progress entry. -/
def parse_experience_loop (acc : List ExperienceEntry)
    (cur : Option ExperienceEntry) : List String → List ExperienceEntry
  | [] =>
    match cur with
    | some c => acc ++ [c]
    | none => acc
  | ln :: rest =>
    if startsWithBullet ln then
      match cur with
      | some c =>
        parse_experience_loop acc (some ⟨c.title, c.details ++ [strip_bullet ln]⟩) rest
      | none => parse_experience_loop acc none rest
    else
      match cur with
      | some c => parse_experience_loop (acc ++ [c]) (some ⟨pyStripS ln, []⟩) rest
      | none => parse_experience_loop acc (some ⟨pyStripS ln, []⟩) rest

/-- `parse_experience` from `utils.py`. -/
def parse_experience (lines : List String) : List ExperienceEntry :=
  parse_experience_loop [] none lines

/-- Modelled from the spec's words for claim C2 (refinement comparison
only): identical to `parse_experience` except that, as the claim states,
a bullet-starting line "has its bullet stripped and is appended trimmed",
i.e. the bullet is stripped from the line even when whitespace precedes
the bullet. -/
def strip_bullet_claim (line : String) : String :=
  match pyLstrip line.data with
  | c :: rest =>
    if isBulletChar c then ⟨pyStrip (rest.dropWhile isSpaceA)⟩
    else ⟨pyStrip line.data⟩
  | [] => ⟨pyStrip line.data⟩

/-- Modelled from the spec's words for claim C2 (refinement comparison
only): the experience grouping as the claim describes it. -/
def parse_experience_claim_loop (acc : List ExperienceEntry)
    (cur : Option ExperienceEntry) : List String → List ExperienceEntry
  | [] =>
    match cur with
    | some c => acc ++ [c]
    | none => acc
  | ln :: rest =>
    if startsWithBullet ln then
      match cur with
      | some c =>
        parse_experience_claim_loop acc
          (some ⟨c.title, c.details ++ [strip_bullet_claim ln]⟩) rest
      | none => parse_experience_claim_loop acc none rest
    else
      match cur with
      | some c => parse_experience_claim_loop (acc ++ [c]) (some ⟨pyStripS ln, []⟩) rest
      | none => parse_experience_claim_loop acc (some ⟨pyStripS ln, []⟩) rest

/-- The experience grouping exactly as claim C2 words it. -/
def parse_experience_claim (lines : List String) : List ExperienceEntry :=
  parse_experience_claim_loop [] none lines

/-- `re.sub(r'^\w+:\s*', '', ln)` — remove a leading label like
`"Programming: "`: one or more word characters followed by a colon and
optional whitespace, anchored at the start. -/
def stripLabel (l : List Char) : List Char :=
  let run := l.takeWhile isWordA
  if run ≠ [] ∧ (l.drop run.length).head? = some ':' then
    (l.drop (run.length + 1)).dropWhile isSpaceA
  else l

/-- `re.split(r',|/|\band\b', ln)`: split on commas, slashes, or the
word-boundary-matched literal `and` (case-sensitive), scanning left to
right.  `prevW` records whether the previous character is a word
character (for the left `\b`); `cur` is the current piece, reversed. -/
def splitParts (prevW : Bool) (cur : List Char) : List Char → List (List Char)
  | [] => [cur.reverse]
  | 'a' :: 'n' :: 'd' :: cs =>
    if !prevW && optNonWord cs.head? then
      cur.reverse :: splitParts true [] cs
    else
      splitParts (isWordA 'a') ('a' :: cur) ('n' :: 'd' :: cs)
  | c :: cs =>
    if c = ',' || c = '/' then cur.reverse :: splitParts (isWordA c) [] cs
    else splitParts (isWordA c) (c :: cur) cs

/-- One insertion step of `parse_skills`: append the stripped part if it
is non-empty and not already present. -/
def skillsInsert (its : List String) (part : List Char) : List String :=
  let p : String := ⟨pyStrip part⟩
  if p.data ≠ [] ∧ p ∉ its then its ++ [p] else its

/-- Processing of one line by `parse_skills`: strip bullet and label,
split into parts, and append each stripped part if non-empty and not
already present. -/
def parse_skills_line (items : List String) (ln : String) : List String :=
  (splitParts false [] (stripLabel (strip_bullet ln).data)).foldl skillsInsert items

/-- `parse_skills` from `utils.py`. -/
def parse_skills (lines : List String) : List String :=
  lines.foldl parse_skills_line []

/-- Does the raw line match `re.match(r'^\d+\.', ln)`:
one or more digits followed by a dot, anchored at the raw start? -/
def numDotTest (ln : String) : Bool :=
  let run := ln.data.takeWhile isDigitA
  run ≠ [] && (ln.data.drop run.length).head? = some '.'

/-- `re.sub(r'^(?:\d+\.\s*|[\-\*•]\s*)', '', ln).strip()` — remove a
leading `digits.` prefix or a leading bullet (anchored at the raw start
of the line), plus following whitespace, then strip. -/
def pubClean (ln : String) : String :=
  let l := ln.data
  let run := l.takeWhile isDigitA
  if run ≠ [] ∧ (l.drop run.length).head? = some '.' then
    ⟨pyStrip ((l.drop (run.length + 1)).dropWhile isSpaceA)⟩
  else
    match l with
    | c :: rest =>
      if isBulletChar c then ⟨pyStrip (rest.dropWhile isSpaceA)⟩ else ⟨pyStrip l⟩
    | [] => ⟨pyStrip l⟩

/-- The loop of `parse_publications`. -/
def parse_publications_loop (pubs : List String) : List String → List String
  | [] => pubs
  | ln :: rest =>
    if startsWithBullet ln || numDotTest ln then
      parse_publications_loop (pubs ++ [pubClean ln]) rest
    else
      if hp : pubs = [] then parse_publications_loop pubs rest
      else
        parse_publications_loop
          (pubs.dropLast ++ [⟨(pubs.getLast hp).data ++ (' ' :: pyStrip ln.data)⟩]) rest

/-- `parse_publications` from `utils.py`. -/
def parse_publications (lines : List String) : List String :=
  parse_publications_loop [] lines

/-- Modelled from the spec's words for claim C6 (refinement comparison
only): the prefix stripping applied to the line with leading whitespace
removed, so that — as the claim states — a line "starting with a bullet
marker" always has that prefix stripped. -/
def pubCleanClaim (ln : String) : String :=
  let l := pyLstrip ln.data
  let run := l.takeWhile isDigitA
  if run ≠ [] ∧ (l.drop run.length).head? = some '.' then
    ⟨pyStrip ((l.drop (run.length + 1)).dropWhile isSpaceA)⟩
  else
    match l with
    | c :: rest =>
      if isBulletChar c then ⟨pyStrip (rest.dropWhile isSpaceA)⟩ else ⟨pyStrip l⟩
    | [] => ⟨pyStrip l⟩

/-- Modelled from the spec's words for claim C6 (refinement comparison
only): the publications grouping as the claim describes it. -/
def parse_publications_claim_loop (pubs : List String) : List String → List String
  | [] => pubs
  | ln :: rest =>
    if startsWithBullet ln || numDotTest ln then
      parse_publications_claim_loop (pubs ++ [pubCleanClaim ln]) rest
    else
      if hp : pubs = [] then parse_publications_claim_loop pubs rest
      else
        parse_publications_claim_loop
          (pubs.dropLast ++ [⟨(pubs.getLast hp).data ++ (' ' :: pyStrip ln.data)⟩]) rest

/-- The publications grouping exactly as claim C6 words it. -/
def parse_publications_claim (lines : List String) : List String :=
  parse_publications_claim_loop [] lines

/-- The six logical sections, the keys of `SECTION_HEADERS`. -/
inductive Section
  | summary
  | skills
  | experience
  | projects
  | publications
  | education
deriving DecidableEq, Repr

/-- The enumeration order of the six sections: the insertion order of the
`SECTION_HEADERS` dict. -/
def Section.all : List Section :=
  [.summary, .skills, .experience, .projects, .publications, .education]

/-- `SECTION_HEADERS` from `utils.py`: the section-to-keywords table, in
dict insertion order. -/
def SECTION_HEADERS : List (Section × List String) :=
  [(.summary, [("summary")]),
   (.skills, [("skills"), ("technical skills"), ("competencies"), ("expertise")]),
   (.experience,
    [("experience"), ("work history"), ("professional background"),
     ("career highlights")]),
   (.projects, [("projects"), ("portfolio"), ("technical projects")]),
   (.publications, [("publications"), ("papers"), ("articles"), ("research")]),
   (.education, [("education"), ("academic background"), ("degrees")])]

/-- The header-detection step of `extract_sections_by_headings`: the
first section (in dict order) one of whose keywords is a substring of
the lower-cased line, if any. -/
def headingOf (line : String) : Option Section :=
  (SECTION_HEADERS.find?
    (fun p => p.2.any (fun k => containsSub (pyLower line.data) k.data))).map Prod.fst

/-- `text.split('\n')` as a list of strings. -/
def linesOf (text : String) : List String :=
  (splitOnChar '\n' text.data).map (fun l => ⟨l⟩)

/-- The loop of `extract_sections_by_headings`: `cur` is the `current`
section, `m` the sections dict (all six keys always present). -/
def segLoop (cur : Option Section) (m : Section → List String) :
    List String → (Section → List String)
  | [] => m
  | line :: rest =>
    match headingOf line with
    | some sec => segLoop (some sec) m rest
    | none =>
      match cur with
      | some c =>
        if pyStrip line.data ≠ [] then
          segLoop cur (fun s => if s = c then m s ++ [line] else m s) rest
        else segLoop cur m rest
      | none => segLoop cur m rest

/-- `extract_sections_by_headings` from `utils.py`, as the association
list of the returned dict (keys in insertion order). -/
def extract_sections_by_headings (text : String) : List (Section × List String) :=
  SECTION_HEADERS.map (fun p => (p.1, segLoop none (fun _ => []) (linesOf text) p.1))

/-- Proof instrument: the same scan as `segLoop`, but recording for each
input line the destination it is assigned: `some s` when the line is
appended to section `s`, `none` when it is dropped (heading line, blank
line, or line before the first heading). -/
def segLabel (cur : Option Section) : List String → List (Option Section × String)
  | [] => []
  | line :: rest =>
    match headingOf line with
    | some sec => (none, line) :: segLabel (some sec) rest
    | none =>
      match cur with
      | some c =>
        if pyStrip line.data ≠ [] then (some c, line) :: segLabel cur rest
        else (none, line) :: segLabel cur rest
      | none => (none, line) :: segLabel cur rest

/-- The lines labelled with section `s`. -/
def labFilter (s : Section) (lab : List (Option Section × String)) : List String :=
  lab.filterMap (fun p => if p.1 = some s then some p.2 else none)

/-- The backtracking step of the domain part `[\w\.-]+\.\w+` of the
email regex in `utils.py`: given the maximal `[\w\.-]` run `R` after the
`@`, find the LAST index holding a `.` that is followed by a word
character (the greedy `[\w\.-]+` gives back as little as possible);
return the part before that dot and the maximal word run after it. -/
def domSplit : List Char → Option (List Char × List Char)
  | [] => none
  | c :: rest =>
    match domSplit rest with
    | some (pre, suf) => some (c :: pre, suf)
    | none =>
      if c = '.' ∧ rest.head?.any isWordA then some ([], rest.takeWhile isWordA)
      else none

/-- Attempt of the `utils.py` email regex `[\w\.-]+@[\w\.-]+\.\w+` at an
`@` sign: `accRev` holds the characters before the `@` (reversed),
`after` the characters following it.  The local part is the maximal
`[\w\.-]` run ending at the `@`; the domain is split out of the maximal
`[\w\.-]` run after the `@` (the dot-and-word-suffix must lie inside it,
with a non-empty part before the dot). -/
def emailAtU (accRev after : List Char) : Option (List Char) :=
  let loc := (accRev.takeWhile isEmailChar).reverse
  if loc = [] then none
  else
    match domSplit (after.takeWhile isEmailChar) with
    | some (pre, suf) =>
      if pre = [] then none else some (loc ++ '@' :: (pre ++ '.' :: suf))
    | none => none

/-- Left-to-right scan of `re.search` for the `utils.py` email pattern:
every match must contain an `@`, and the leftmost match belongs to the
leftmost `@` admitting one. -/
def extract_email_scan (accRev : List Char) : List Char → Option (List Char)
  | [] => none
  | c :: cs =>
    if c = '@' then
      match emailAtU accRev cs with
      | some m => some m
      | none => extract_email_scan (c :: accRev) cs
    else extract_email_scan (c :: accRev) cs

/-- `extract_email` from `utils.py`:
the first match of `[\w\.-]+@[\w\.-]+\.\w+`, or none. -/
def extract_email (text : String) : Option String :=
  (extract_email_scan [] text.data).map (fun l => ⟨l⟩)

end Utils

namespace Resume

/-! Definitions embedded from `src/parsers/resume_parser.py`
(the module name ends in a word this file avoids). -/

/-- Attempt of the `resume_parser.py` email regex `[\w\.-]+@[\w\.-]+` at
an `@` sign: local part and domain are the maximal `[\w\.-]` runs around
the `@`; no dot is required. -/
def emailAtR (accRev after : List Char) : Option (List Char) :=
  let loc := (accRev.takeWhile isEmailChar).reverse
  let dom := after.takeWhile isEmailChar
  if loc = [] || dom = [] then none else some (loc ++ '@' :: dom)

/-- Left-to-right scan of `re.search` for the `resume_parser.py` email
pattern. -/
def extract_email_scan (accRev : List Char) : List Char → Option (List Char)
  | [] => none
  | c :: cs =>
    if c = '@' then
      match emailAtR accRev cs with
      | some m => some m
      | none => extract_email_scan (c :: accRev) cs
    else extract_email_scan (c :: accRev) cs

/-- `extract_email` from `resume_parser.py` (the variant `parse_resume`
calls): the first match of `[\w\.-]+@[\w\.-]+`, or none. -/
def extract_email (text : String) : Option String :=
  (extract_email_scan [] text.data).map (fun l => ⟨l⟩)

/-- `re.sub(r'\s+', ' ', text)`: collapse every maximal whitespace run
to one space.  `inRun` records whether the scan is inside a run whose
single space has already been emitted. -/
def collapseWSAux (inRun : Bool) : List Char → List Char
  | [] => []
  | c :: cs =>
    if isSpaceA c then
      if inRun then collapseWSAux true cs else ' ' :: collapseWSAux true cs
    else c :: collapseWSAux false cs

/-- `re.sub(r'\s+', ' ', text)` on a character list. -/
def collapseWS (l : List Char) : List Char := collapseWSAux false l

/-- One pass of `re.sub(r'\b' + re.escape(key) + r'\b', repl, text,
flags=re.IGNORECASE)` for a non-empty `key = k0 :: kt` that starts and
ends with word characters (true of every `OCR_CORRECTIONS` key, so `\b`
reduces to: the previous character is absent or non-word, and the
character after the match is absent or non-word).  Matches are found
left to right, non-overlapping, in the original text; after a match the
scan resumes with the previous-character state taken from the matched
text (whose word-ness equals that of the key's last character). -/
def substAux (k0 : Char) (kt : List Char) (repl : List Char) :
    Bool → List Char → List Char
  | _, [] => []
  | prevW, c :: cs =>
    if !prevW && ciMatches (k0 :: kt) (c :: cs)
        && optNonWord (cs.drop kt.length).head? then
      repl ++ substAux k0 kt repl (isWordA (kt.getLastD k0)) (cs.drop kt.length)
    else c :: substAux k0 kt repl (isWordA c) cs
termination_by _ l => l.length
decreasing_by
  · simp only [List.length_drop, List.length_cons]
    omega
  · simp only [List.length_cons]
    omega

/-- The scan underlying `re.search(r'\b' + key + r'\b', text,
re.IGNORECASE)`: is there a word-bounded case-insensitive occurrence? -/
def occursAux (k0 : Char) (kt : List Char) : Bool → List Char → Bool
  | _, [] => false
  | prevW, c :: cs =>
    (!prevW && ciMatches (k0 :: kt) (c :: cs)
      && optNonWord (cs.drop kt.length).head?)
    || occursAux k0 kt (isWordA c) cs

/-- `re.search(r'\b' + re.escape(key) + r'\b', text, re.IGNORECASE)`
as a Boolean. -/
def occursWord (key l : List Char) : Bool :=
  match key with
  | [] => false
  | k0 :: kt => occursAux k0 kt false l

/-- `re.sub(r'\b' + re.escape(key) + r'\b', repl, text, re.IGNORECASE)`. -/
def substWord (key repl l : List Char) : List Char :=
  match key with
  | [] => l
  | k0 :: kt => substAux k0 kt repl false l

/-- `OCR_CORRECTIONS` from `resume_parser.py`, in dict insertion order. -/
def OCR_CORRECTIONS : List (List Char × List Char) :=
  [(("Gexanple").data, ("example").data),
   (("exanple").data, ("example").data),
   (("Gmail. com").data, ("gmail.com").data),
   (("linkedin. con").data, ("linkedin.com").data),
   (("github. con").data, ("github.com").data),
   (("dot com").data, (".com").data)]

/-- One iteration of the correction loop of `clean_ocr_text`:
substitute only when a search finds a match (the Python code guards the
`re.sub` with an `re.search` to record the correction). -/
def corrStep (t : List Char) (kr : List Char × List Char) : List Char :=
  if occursWord kr.1 t then substWord kr.1 kr.2 t else t

/-- The correction loop of `clean_ocr_text`. -/
def applyCorrections (l : List Char) : List Char :=
  OCR_CORRECTIONS.foldl corrStep l

/-- Adjacent characters are not both whitespace (the shape of text whose
whitespace runs are already collapsed). -/
def Rsp (a b : Char) : Prop := ¬(isSpaceA a = true ∧ isSpaceA b = true)

/-- The normal form reached by the first three stages of
`clean_ocr_text` (collapse, quote map, strip): no two adjacent
whitespace characters, no edge whitespace, every whitespace character is
a plain space, and no curly quote remains. -/
def GoodText (l : List Char) : Prop :=
  List.Chain' Rsp l
  ∧ (∀ c, l.head? = some c → isSpaceA c = false)
  ∧ (∀ c, l.getLast? = some c → isSpaceA c = false)
  ∧ (∀ c ∈ l, isSpaceA c = true → c = ' ')
  ∧ (∀ c ∈ l, quoteMap c = c)

/-- `clean_ocr_text` from `resume_parser.py`: collapse whitespace to
single spaces, normalize quotes, strip, then apply the OCR
corrections. -/
def clean_ocr_text (raw : String) : String :=
  ⟨applyCorrections (pyStrip ((collapseWS raw.data).map quoteMap))⟩

/-- The character class `[\d -]` of the phone regex. -/
def isPhoneMid (c : Char) : Bool := isDigitA c || c = ' ' || c = '-'

/-- The body `\d[\d -]{8,}\d` of the phone regex, anchored at a digit:
take the maximal `[\d -]` run, give back trailing non-digits so the
match ends on a digit, and require at least 10 characters in total. -/
def phoneBody (l : List Char) : Option (List Char) :=
  let run := l.takeWhile isPhoneMid
  let cand := (run.reverse.dropWhile (fun c => !isDigitA c)).reverse
  if 10 ≤ cand.length then some cand else none

/-- Attempt of the phone regex `\+?\d[\d -]{8,}\d` at one position. -/
def phoneAt : List Char → Option (List Char)
  | [] => none
  | '+' :: c :: cs =>
    if isDigitA c then (phoneBody (c :: cs)).map (fun m => '+' :: m) else none
  | c :: cs => if isDigitA c then phoneBody (c :: cs) else none

/-- Left-to-right scan of `re.search` for the phone pattern. -/
def extract_phone_scan : List Char → Option (List Char)
  | [] => none
  | c :: cs =>
    match phoneAt (c :: cs) with
    | some m => some m
    | none => extract_phone_scan cs

/-- `extract_phone` from `resume_parser.py`. -/
def extract_phone (text : String) : Option String :=
  (extract_phone_scan text.data).map (fun l => ⟨l⟩)

/-- The hard-coded `skills_list` of `parse_resume`. -/
def skills_list : List String :=
  [("Python"), ("Java"), ("Machine Learning"), ("Data Analysis"), ("SQL"),
   ("Pandas"), ("NumPy"), ("Scikit-learn"), ("Flask")]

/-- `extract_skills` from `resume_parser.py`: the skills whose
lower-cased name occurs in the lower-cased text. -/
def extract_skills (text : String) (skills : List String) : List String :=
  skills.filter (fun skill => containsSub (pyLower text.data) (pyLower skill.data))

/-- The degree keywords of `extract_education`, lower-cased. -/
def eduKeywords : List (List Char) :=
  [("bachelor").data, ("master").data, ("phd").data, ("b.sc").data,
   ("m.sc").data, ("b.tech").data, ("m.tech").data]

/-- `re.search(r'(Bachelor|Master|PhD|B\.Sc|M\.Sc|B\.Tech|M\.Tech).*?,',
line, re.IGNORECASE)`: true iff some keyword occurs (case-insensitively)
with a comma somewhere after it (lines contain no newline, so `.`
matches every remaining character). -/
def eduTest (line : List Char) : Bool :=
  (pyLower line).tails.any
    (fun t => eduKeywords.any (fun k => k.isPrefixOf t && (t.drop k.length).contains ','))

/-- `extract_education` from `resume_parser.py`. -/
def extract_education (text : String) : List String :=
  ((splitOnChar '\n' text.data).filter eduTest).map (fun l => pyStripS ⟨l⟩)

/-- The character class `[A-Za-z ]`. -/
def isAlphaSpace (c : Char) : Bool :=
  (65 ≤ c.toNat && c.toNat ≤ 90) || (97 ≤ c.toNat && c.toNat ≤ 122) || c.toNat = 32

/-- `re.match(r'^[A-Za-z ]+:$', line.strip())`: the next-section-header
test used by the block extractors. -/
def isHeaderColon (l : List Char) : Bool :=
  match (pyStrip l).reverse with
  | ':' :: body => !body.isEmpty && body.all isAlphaSpace
  | _ => false

/-- The loop of `extract_section_block`: set `capture` on a line
containing the title (case-insensitively) and collect stripped lines
until a blank line or a next-section header. -/
def sectionBlockLoop (title : List Char) (capture : Bool)
    (acc : List (List Char)) : List (List Char) → List (List Char)
  | [] => acc
  | line :: rest =>
    if containsSub (pyLower line) (pyLower title) then
      sectionBlockLoop title true acc rest
    else
      if capture then
        if pyStrip line = [] || isHeaderColon line then acc
        else sectionBlockLoop title true (acc ++ [pyStrip line]) rest
      else sectionBlockLoop title false acc rest

/-- `extract_section_block` from `resume_parser.py`. -/
def extract_section_block (text : String) (title : String) : List String :=
  (sectionBlockLoop title.data false [] (splitOnChar '\n' text.data)).map
    (fun l => ⟨l⟩)

/-- `extract_certifications`. -/
def extract_certifications (text : String) : List String :=
  extract_section_block text ("Certifications")

/-- The loop of `extract_experience`: capture only after a line whose
stripped lower-case form is exactly `experience:`. -/
def experienceLoop (capture : Bool) (acc : List (List Char)) :
    List (List Char) → List (List Char)
  | [] => acc
  | line :: rest =>
    if pyLower (pyStrip line) = ("experience:").data then
      experienceLoop true acc rest
    else
      if capture then
        if pyStrip line = [] || isHeaderColon line then acc
        else
          if pyStrip line ≠ [] then experienceLoop true (acc ++ [pyStrip line]) rest
          else experienceLoop true acc rest
      else experienceLoop false acc rest

/-- `extract_experience` from `resume_parser.py` (a list of stripped
lines, not title/details records). -/
def extract_experience (text : String) : List String :=
  (experienceLoop false [] (splitOnChar '\n' text.data)).map (fun l => ⟨l⟩)

/-- `extract_projects`. -/
def extract_projects (text : String) : List String :=
  extract_section_block text ("Projects")

/-- `extract_publications` (the block-based variant of
`resume_parser.py`, distinct from the one in `utils.py`). -/
def extract_publications (text : String) : List String :=
  extract_section_block text ("Publications")

/-- `extract_references`: a case-sensitive substring test. -/
def extract_references (text : String) : List String :=
  if containsSub text.data ("References").data then
    [("Available upon request")]
  else []

/-- The value of one field of the result dict of `parse_resume`: email
and phone are optional strings, every other field a list of strings. -/
inductive FieldValue
  | optStr : Option String → FieldValue
  | strs : List String → FieldValue
deriving DecidableEq, Repr

/-- The result dict of `parse_resume`, as an association list with keys
in insertion order. -/
def assembleResult (text : String) : List (String × FieldValue) :=
  [(("email"), FieldValue.optStr (extract_email text)),
   (("phone"), FieldValue.optStr (extract_phone text)),
   (("skills"), FieldValue.strs (extract_skills text skills_list)),
   (("education"), FieldValue.strs (extract_education text)),
   (("certifications"), FieldValue.strs (extract_certifications text)),
   (("experience"), FieldValue.strs (extract_experience text)),
   (("projects"), FieldValue.strs (extract_projects text)),
   (("publications"), FieldValue.strs (extract_publications text)),
   (("references"), FieldValue.strs (extract_references text))]

/-- Python `str.endswith` (case-sensitive). -/
def pyEndsWith (s suffix : String) : Bool := suffix.data.isSuffixOf s.data

/-- `parse_resume` from `resume_parser.py`.  Document loading is an
external collaborator, modelled by two oracles: `pdfRaw` is the combined
embedded+OCR text the PDF loader would produce (which the code passes
through `clean_ocr_text` before parsing) and `docxRaw` the concatenated
paragraph text of the DOCX loader (used raw).  The dispatch uses
Python's case-sensitive `str.endswith`; an unsupported extension raises
`ValueError("Unsupported file type")` before any extraction. -/
def parse_resume (path : String) (pdfRaw docxRaw : String) :
    Except String (List (String × FieldValue)) :=
  if pyEndsWith path (".pdf") then Except.ok (assembleResult (clean_ocr_text pdfRaw))
  else if pyEndsWith path (".docx") then Except.ok (assembleResult docxRaw)
  else Except.error ("Unsupported file type")

/-! Specification instruments for the word-bounded case-insensitive
matching that `re.search`/`re.sub` perform in the OCR-correction loop
(used to reason about `clean_ocr_text`). -/

/-- The word-ness of the character preceding the current position: the
last character of `x`, or the inherited state `pw` when `x` is empty. -/
def lastW (pw : Bool) (x : List Char) : Bool :=
  match x.getLast? with
  | some c => isWordA c
  | none => pw

/-- Is the last character of `x` a word character (`false` on empty)? -/
def wordLastOpt (x : List Char) : Bool :=
  match x.getLast? with
  | some c => isWordA c
  | none => false

/-- Is the first character of `x` a word character (`false` on empty)? -/
def wordHeadOpt (x : List Char) : Bool :=
  match x.head? with
  | some c => isWordA c
  | none => false

/-- A word-bounded case-insensitive occurrence of `key` at the very
start of `l`, where `pw` is the word-ness of the preceding character
(both boundary tests in the `\bkey\b` form used by the corrections,
whose keys start and end with word characters). -/
def headMatch (key : List Char) (pw : Bool) (l : List Char) : Prop :=
  pw = false ∧ ciMatches key l = true
    ∧ optNonWord (l.drop key.length).head? = true

/-- A word-bounded case-insensitive occurrence of `key` anywhere in `l`:
what `re.search(r'\bkey\b', l, re.IGNORECASE)` finds. -/
def hasMatch (key : List Char) (pw : Bool) : List Char → Prop
  | [] => headMatch key pw []
  | c :: cs => headMatch key pw (c :: cs) ∨ hasMatch key (isWordA c) cs

/-- No occurrence of `K` with a realizable left boundary fits inside a
copy of the replacement `R`. -/
def condInside (K R : List Char) : Bool :=
  (List.range (R.length + 1)).all fun i =>
    !((!wordLastOpt (R.take i)) && ciMatches K (R.drop i))

/-- No occurrence of `K` with a realizable left boundary can start
inside a copy of `R` and run past its right end. -/
def condSufPre (K R : List Char) : Bool :=
  (List.range R.length).all fun i =>
    !((!wordLastOpt (R.take i)) && decide (R.length - i < K.length)
      && ciMatches (K.take (R.length - i)) (R.drop i))

/-- No occurrence of `K` can start before a copy of `R` (with the
non-word pre-boundary of the substituted match just before the copy)
and end inside it or exactly at its end. -/
def condPreSuf (K R : List Char) : Bool :=
  (List.range K.length).all fun a =>
    !(decide (1 ≤ a) && (!wordLastOpt (K.take a)) && ciMatches (K.drop a) R)

/-- No occurrence of `K` can contain a copy of `R` strictly inside it. -/
def condSpan (K R : List Char) : Bool :=
  (List.range K.length).all fun a =>
    !(decide (1 ≤ a) && decide (a + R.length < K.length)
      && (!wordLastOpt (K.take a)) && ciMatches R (K.drop a))

/-- The decidable conditions under which substituting `R` for the key
`Kp` can neither create nor keep a word-bounded case-insensitive
occurrence of `K` (checked by `decide` for the concrete
`OCR_CORRECTIONS` pairs). -/
def SideCond (K Kp R : List Char) : Bool :=
  !K.isEmpty && !Kp.isEmpty && !R.isEmpty
  && wordHeadOpt K && wordLastOpt K && wordHeadOpt Kp && wordLastOpt Kp
  && wordLastOpt R
  && condInside K R && condSufPre K R && condPreSuf K R && condSpan K R

end Resume

deriving instance DecidableEq for Except

-- ===== THEOREMS =====

namespace Utils

/-- Helper: with no current entry, a run of bullet-only lines leaves the
accumulator untouched. -/
theorem parse_experience_loop_all_bullets (ls : List String)
    (h : ∀ l ∈ ls, startsWithBullet l = true) (acc : List ExperienceEntry) :
    parse_experience_loop acc none ls = acc := by
  induction ls with
  | nil => rfl
  | cons a as ih =>
    have ha : startsWithBullet a = true := h a (List.mem_cons_self a as)
    simp only [parse_experience_loop, ha, if_pos]
    exact ih (fun l hl => h l (List.mem_cons_of_mem a hl))

/-- C2 (counterexample): the line `" - X"` (bullet preceded by a space) is
classified as a bullet detail, but `strip_bullet` is anchored at the raw
start of the line, so the bullet marker is NOT stripped: the code keeps
`"- X"` while the claim's reading strips it to `"X"`. -/
theorem C2_counterexample :
    parse_experience [("T"), (" - X")] = [⟨("T"), [("- X")]⟩]
    ∧ parse_experience_claim [("T"), (" - X")] = [⟨("T"), [("X")]⟩]
    ∧ parse_experience [("T"), (" - X")]
        ≠ parse_experience_claim [("T"), (" - X")] := by
  refine ⟨by decide, by decide, by decide⟩

/-- C2 (amended): the experience post-processor groups a non-bullet line
as a new entry (flushing the previous one), appends bullet lines to the
current entry's details, drops bullet lines seen before any title, and
flushes the final entry; the bullet marker is stripped from a detail line
only when it is the line's first character — a bullet preceded by
whitespace is kept in the (trimmed) detail text.  The claim's concrete
example holds as stated. -/
theorem C2_amended :
    parse_experience
        [("Software Engineer"), ("- Built system X"), ("- Led team Y"),
         ("Data Analyst"), ("- Wrote reports")]
      = [⟨("Software Engineer"), [("Built system X"), ("Led team Y")]⟩,
         ⟨("Data Analyst"), [("Wrote reports")]⟩]
    ∧ parse_experience [("T"), (" - X")] = [⟨("T"), [("- X")]⟩]
    ∧ ∀ ls : List String, (∀ l ∈ ls, startsWithBullet l = true) →
        parse_experience ls = [] := by
  refine ⟨by decide, by decide, ?_⟩
  intro ls h
  exact parse_experience_loop_all_bullets ls h []

/-- C2 witness: the amended theorem applied at a concrete input. -/
theorem C2_witness : parse_experience [("- a")] = [] :=
  C2_amended.2.2 [("- a")] (by decide)

/-- Helper: one insertion step of `parse_skills` preserves `Nodup`,
since a part is appended only when not already present. -/
theorem skillsInsert_nodup (its : List String) (part : List Char)
    (h : its.Nodup) : (skillsInsert its part).Nodup := by
  unfold skillsInsert
  by_cases hc : (⟨pyStrip part⟩ : String).data ≠ [] ∧ (⟨pyStrip part⟩ : String) ∉ its
  · rw [if_pos hc]
    refine List.nodup_append.mpr ⟨h, List.nodup_singleton _, ?_⟩
    intro x hx hx2
    simp only [List.mem_singleton] at hx2
    subst hx2
    exact hc.2 hx
  · rw [if_neg hc]
    exact h

/-- Helper: the per-part fold of `parse_skills` preserves `Nodup`. -/
theorem skills_fold_nodup (parts : List (List Char)) (its : List String)
    (h : its.Nodup) : (parts.foldl skillsInsert its).Nodup := by
  induction parts generalizing its with
  | nil => exact h
  | cons a as ih =>
    simp only [List.foldl_cons]
    exact ih _ (skillsInsert_nodup its a h)

/-- Helper: `parse_skills` always produces a duplicate-free list. -/
theorem parse_skills_nodup (lines : List String) : (parse_skills lines).Nodup := by
  have key : ∀ ls : List String, ∀ its : List String, its.Nodup →
      (ls.foldl parse_skills_line its).Nodup := by
    intro ls
    induction ls with
    | nil => intro its h; exact h
    | cons a as ih =>
      intro its h
      simp only [List.foldl_cons]
      exact ih _ (skills_fold_nodup _ _ h)
  exact key lines [] List.nodup_nil

/-- C5: the skills post-processor splits each (bullet- and
label-stripped) line on commas, slashes, or the word-boundary-matched
word "and", trims each piece, and appends it only if non-empty and not
already present; the result is duplicate-free across the whole section,
and the single line `"Python, Python, Java"` yields exactly
`["Python", "Java"]`. -/
theorem C5_skills_dedupe :
    (∀ lines : List String, (parse_skills lines).Nodup)
    ∧ parse_skills [("Python, Python, Java")] = [("Python"), ("Java")]
    ∧ parse_skills [("Skills: Python / Java and C")]
        = [("Python"), ("Java"), ("C")] :=
  ⟨parse_skills_nodup, by decide, by decide⟩

/-- C10: de-duplication in `parse_skills` compares tokens by exact,
case-sensitive string equality, so two case variants of the same token
both appear in the output. -/
theorem C10_case_sensitive_dedupe :
    parse_skills [("Python, python")] = [("Python"), ("python")]
    ∧ ("Python" : String) ≠ ("python") := by
  exact ⟨by decide, by decide⟩

/-- Helper: continuation lines before any publication entry exists are
dropped. -/
theorem parse_publications_loop_all_cont (ls : List String)
    (h : ∀ l ∈ ls, startsWithBullet l = false ∧ numDotTest l = false) :
    parse_publications_loop [] ls = [] := by
  induction ls with
  | nil => rfl
  | cons a as ih =>
    have ha := h a (List.mem_cons_self a as)
    simp only [parse_publications_loop, ha.1, ha.2, Bool.or_self, if_false,
      dif_pos rfl, Bool.false_eq_true]
    exact ih (fun l hl => h l (List.mem_cons_of_mem a hl))

/-- C6 (counterexample): the bullet test of `parse_publications` ignores
leading whitespace (`lstrip`), but the prefix-stripping regex is anchored
at the raw start of the line, so the line `" - B"` starts a new entry
whose text keeps the bullet (`"- B"`), while the claim's reading strips
it to `"B"`. -/
theorem C6_counterexample :
    parse_publications [("1. A"), (" - B")] = [("A"), ("- B")]
    ∧ parse_publications_claim [("1. A"), (" - B")] = [("A"), ("B")]
    ∧ parse_publications [("1. A"), (" - B")]
        ≠ parse_publications_claim [("1. A"), (" - B")] :=
  ⟨by decide, by decide, by decide⟩

/-- C6 (amended): a line whose first non-whitespace character is a bullet
marker, or that matches an anchored leading digits-dot pattern, starts a
new publication entry; the bullet/number prefix is stripped only when it
sits at the very start of the raw line (a bullet preceded by whitespace
is kept in the trimmed entry text); any other line is space-joined onto
the most recent entry and dropped when no entry exists yet.  The claim's
concrete example holds as stated. -/
theorem C6_amended :
    parse_publications
        [("1. A Study of Widgets"), ("in Journal of Things, 2020"),
         ("2. Another Paper")]
      = [("A Study of Widgets in Journal of Things, 2020"), ("Another Paper")]
    ∧ parse_publications [("1. A"), (" - B")] = [("A"), ("- B")]
    ∧ ∀ ls : List String,
        (∀ l ∈ ls, startsWithBullet l = false ∧ numDotTest l = false) →
        parse_publications ls = [] := by
  refine ⟨by decide, by decide, ?_⟩
  intro ls h
  exact parse_publications_loop_all_cont ls h

/-- C6 witness: the amended theorem applied at a concrete input. -/
theorem C6_witness : parse_publications [("continuation line")] = [] :=
  C6_amended.2.2 [("continuation line")] (by decide)

/-- Helper: a line labelled `none` contributes nothing to any section. -/
theorem labFilter_cons_none (s : Section) (line : String)
    (L : List (Option Section × String)) :
    labFilter s ((none, line) :: L) = labFilter s L := by
  simp [labFilter]

/-- Helper: a line labelled `some c` contributes exactly to section `c`. -/
theorem labFilter_cons_some (s c : Section) (line : String)
    (L : List (Option Section × String)) :
    labFilter s ((some c, line) :: L)
      = if c = s then line :: labFilter s L else labFilter s L := by
  by_cases h : c = s
  · subst h; simp [labFilter]
  · simp [labFilter, h]

/-- Helper: `segLoop` computes, for every section, the initial content
plus exactly the lines that `segLabel` labels with that section. -/
theorem segLoop_eq (lines : List String) :
    ∀ (cur : Option Section) (m : Section → List String) (s : Section),
      segLoop cur m lines s = m s ++ labFilter s (segLabel cur lines) := by
  induction lines with
  | nil =>
    intro cur m s
    simp [segLoop, segLabel, labFilter]
  | cons line rest ih =>
    intro cur m s
    cases hh : headingOf line with
    | some sec =>
      simp only [segLoop, segLabel, hh]
      rw [ih, labFilter_cons_none]
    | none =>
      cases cur with
      | some c =>
        by_cases hb : pyStrip line.data ≠ []
        · simp only [segLoop, segLabel, hh, if_pos hb]
          rw [ih, labFilter_cons_some]
          by_cases hcs : c = s
          · subst hcs
            simp [List.append_assoc]
          · have hsc : ¬s = c := fun h => hcs h.symm
            simp [hcs, hsc]
        · simp only [segLoop, segLabel, hh, if_neg hb]
          rw [ih, labFilter_cons_none]
      | none =>
        simp only [segLoop, segLabel, hh]
        rw [ih, labFilter_cons_none]

/-- Helper: the labelled scan preserves the input lines, in order. -/
theorem segLabel_map_snd (lines : List String) :
    ∀ cur : Option Section, (segLabel cur lines).map Prod.snd = lines := by
  induction lines with
  | nil => intro cur; rfl
  | cons line rest ih =>
    intro cur
    cases hh : headingOf line with
    | some sec => simp [segLabel, hh, ih]
    | none =>
      cases cur with
      | some c =>
        by_cases hb : pyStrip line.data ≠ []
        · simp [segLabel, hh, if_pos hb, ih]
        · simp [segLabel, hh, if_neg hb, ih]
      | none => simp [segLabel, hh, ih]

/-- Helper: heading lines and blank lines are always labelled `none`. -/
theorem segLabel_none_of_heading_or_blank (lines : List String) :
    ∀ cur : Option Section, ∀ p ∈ segLabel cur lines,
      ((headingOf p.2).isSome → p.1 = none)
      ∧ (pyStrip p.2.data = [] → p.1 = none) := by
  induction lines with
  | nil => intro cur p hp; cases hp
  | cons line rest ih =>
    intro cur p hp
    cases hh : headingOf line with
    | some sec =>
      simp only [segLabel, hh, List.mem_cons] at hp
      rcases hp with hp | hp
      · subst hp; exact ⟨fun _ => rfl, fun _ => rfl⟩
      · exact ih (some sec) p hp
    | none =>
      cases cur with
      | some c =>
        by_cases hb : pyStrip line.data ≠ []
        · simp only [segLabel, hh, if_pos hb, List.mem_cons] at hp
          rcases hp with hp | hp
          · subst hp
            constructor
            · intro hs; rw [hh] at hs; cases hs
            · intro hs; exact absurd hs hb
          · exact ih (some c) p hp
        · simp only [segLabel, hh, if_neg hb, List.mem_cons] at hp
          rcases hp with hp | hp
          · subst hp; exact ⟨fun _ => rfl, fun _ => rfl⟩
          · exact ih (some c) p hp
      | none =>
        simp only [segLabel, hh, List.mem_cons] at hp
        rcases hp with hp | hp
        · subst hp; exact ⟨fun _ => rfl, fun _ => rfl⟩
        · exact ih none p hp

/-- Helper: the dropped lines of a scan started with no current section
are exactly the prefix before the first heading line. -/
theorem segLabel_pre_heading (lines : List String) :
    segLabel none lines
      = ((lines.takeWhile (fun l => (headingOf l).isNone)).map
          (fun l => ((none : Option Section), l)))
        ++ segLabel none (lines.dropWhile (fun l => (headingOf l).isNone)) := by
  induction lines with
  | nil => rfl
  | cons line rest ih =>
    cases hh : headingOf line with
    | some sec =>
      simp [List.takeWhile_cons, List.dropWhile_cons, hh]
    | none =>
      simp only [segLabel, hh, List.takeWhile_cons, List.dropWhile_cons,
        Option.isNone_none]
      simp [ih]

/-- Helper: once a heading has been seen, every non-blank non-heading
line is assigned to a section. -/
theorem segLabel_some_assigned (lines : List String) :
    ∀ c : Section, ∀ p ∈ segLabel (some c) lines,
      headingOf p.2 = none → pyStrip p.2.data ≠ [] → p.1.isSome := by
  induction lines with
  | nil => intro c p hp; cases hp
  | cons line rest ih =>
    intro c p hp h1 h2
    cases hh : headingOf line with
    | some sec =>
      simp only [segLabel, hh, List.mem_cons] at hp
      rcases hp with hp | hp
      · subst hp; rw [hh] at h1; cases h1
      · exact ih sec p hp h1 h2
    | none =>
      by_cases hb : pyStrip line.data ≠ []
      · simp only [segLabel, hh, if_pos hb, List.mem_cons] at hp
        rcases hp with hp | hp
        · subst hp; rfl
        · exact ih c p hp h1 h2
      · simp only [segLabel, hh, if_neg hb, List.mem_cons] at hp
        rcases hp with hp | hp
        · subst hp
          simp only [not_not] at hb
          exact absurd hb h2
        · exact ih c p hp h1 h2

/-- C1: the section segmenter assigns every line of the normalized text
exactly one destination; a section's content consists exactly of the
lines labelled with it (so no line occurrence appears in two sections);
the map has all six keys in enumeration order; heading-matching lines
and blank lines are never appended to any section; the lines dropped
from the no-current-section state are exactly those before the first
heading; and once a heading has been seen every non-blank non-heading
line is assigned to a section. -/
theorem C1_segmenter_partition (text : String) :
    ((segLabel none (linesOf text)).map Prod.snd = linesOf text)
    ∧ (extract_sections_by_headings text
        = SECTION_HEADERS.map
            (fun p => (p.1, labFilter p.1 (segLabel none (linesOf text)))))
    ∧ ((extract_sections_by_headings text).map Prod.fst = Section.all)
    ∧ (∀ p ∈ segLabel none (linesOf text), (headingOf p.2).isSome → p.1 = none)
    ∧ (∀ p ∈ segLabel none (linesOf text), pyStrip p.2.data = [] → p.1 = none)
    ∧ (segLabel none (linesOf text)
        = (((linesOf text).takeWhile (fun l => (headingOf l).isNone)).map
            (fun l => ((none : Option Section), l)))
          ++ segLabel none ((linesOf text).dropWhile (fun l => (headingOf l).isNone)))
    ∧ (∀ c : Section, ∀ ls : List String, ∀ p ∈ segLabel (some c) ls,
        headingOf p.2 = none → pyStrip p.2.data ≠ [] → p.1.isSome) := by
  refine ⟨segLabel_map_snd _ none, ?_, ?_, ?_, ?_, segLabel_pre_heading _, ?_⟩
  · unfold extract_sections_by_headings
    refine List.map_congr_left ?_
    intro p _
    rw [segLoop_eq]
    rfl
  · unfold extract_sections_by_headings
    rw [List.map_map]
    rfl
  · intro p hp h
    exact (segLabel_none_of_heading_or_blank _ none p hp).1 h
  · intro p hp h
    exact (segLabel_none_of_heading_or_blank _ none p hp).2 h
  · intro c ls p hp h1 h2
    exact segLabel_some_assigned ls c p hp h1 h2

/-- C1 witness: the partition theorem applied at a concrete input — a
non-blank, non-heading line scanned with a current section is assigned
to it. -/
theorem C1_witness :
    ((some Section.skills, ("Python" : String)).1).isSome = true :=
  (C1_segmenter_partition ("Skills")).2.2.2.2.2.2 Section.skills [("Python")]
    ((some Section.skills, ("Python"))) (by decide) (by decide) (by decide)

end Utils

namespace Utils

/-- Helper: what a successful `domSplit` returns: a decomposition of the
run at a dot followed by a non-empty word run. -/
theorem domSplit_spec (R : List Char) :
    ∀ pre suf, domSplit R = some (pre, suf) →
      (∃ t, R = pre ++ '.' :: (suf ++ t)) ∧ suf ≠ []
        ∧ ∀ c ∈ suf, isWordA c = true := by
  induction R with
  | nil => intro pre suf h; cases h
  | cons c rest ih =>
    intro pre suf h
    simp only [domSplit] at h
    cases hd : domSplit rest with
    | some pq =>
      obtain ⟨p1, p2⟩ := pq
      rw [hd] at h
      simp only [Option.some.injEq, Prod.mk.injEq] at h
      obtain ⟨hpre, hsuf⟩ := h
      obtain ⟨⟨t, ht⟩, hne, hall⟩ := ih p1 p2 hd
      subst hpre
      subst hsuf
      exact ⟨⟨t, by rw [ht]; simp⟩, hne, hall⟩
    | none =>
      simp only [hd] at h
      by_cases hc : c = '.' ∧ rest.head?.any isWordA = true
      · rw [if_pos hc] at h
        simp only [Option.some.injEq, Prod.mk.injEq] at h
        obtain ⟨hpre, hsuf⟩ := h
        obtain ⟨hdot, hw⟩ := hc
        subst hdot
        subst hpre
        subst hsuf
        cases rest with
        | nil => cases hw
        | cons d rest2 =>
          simp only [List.head?_cons, Option.any_some] at hw
          refine ⟨⟨(d :: rest2).dropWhile isWordA, ?_⟩, ?_, ?_⟩
          · simp [List.takeWhile_append_dropWhile]
          · simp [List.takeWhile_cons, hw]
          · intro x hx
            exact List.mem_takeWhile_imp hx
      · rw [if_neg hc] at h; cases h

/-- Helper: a successful email-match attempt at an `@` yields a string
of the form `local@pre.suffix` with the advertised character classes. -/
theorem emailAtU_some (accRev after m : List Char)
    (h : emailAtU accRev after = some m) :
    ∃ loc pre suf : List Char,
      m = loc ++ '@' :: (pre ++ '.' :: suf)
      ∧ loc ≠ [] ∧ pre ≠ [] ∧ suf ≠ []
      ∧ (∀ c ∈ loc, isEmailChar c = true) ∧ (∀ c ∈ pre, isEmailChar c = true)
      ∧ (∀ c ∈ suf, isWordA c = true) := by
  simp only [emailAtU] at h
  by_cases h0 : (accRev.takeWhile isEmailChar).reverse = []
  · rw [if_pos h0] at h; cases h
  · rw [if_neg h0] at h
    cases hd : domSplit (after.takeWhile isEmailChar) with
    | none => simp only [hd] at h; cases h
    | some pq =>
      obtain ⟨pre, suf⟩ := pq
      simp only [hd] at h
      by_cases hp : pre = []
      · rw [if_pos hp] at h; cases h
      · rw [if_neg hp] at h
        simp only [Option.some.injEq] at h
        obtain ⟨⟨t, hR⟩, hsne, hsall⟩ := domSplit_spec _ pre suf hd
        refine ⟨_, pre, suf, h.symm, h0, hp, hsne, ?_, ?_, hsall⟩
        · intro c hc
          rw [List.mem_reverse] at hc
          exact List.mem_takeWhile_imp hc
        · intro c hc
          have hmem : c ∈ after.takeWhile isEmailChar := by
            rw [hR]; exact List.mem_append_left _ hc
          exact List.mem_takeWhile_imp hmem

/-- Helper: every successful scan result comes from some match attempt. -/
theorem extract_email_scan_some (l : List Char) :
    ∀ accRev m, extract_email_scan accRev l = some m →
      ∃ a b, emailAtU a b = some m := by
  induction l with
  | nil => intro a m h; cases h
  | cons c cs ih =>
    intro a m h
    simp only [extract_email_scan] at h
    by_cases hc : c = '@'
    · rw [if_pos hc] at h
      cases he : emailAtU a cs with
      | some m2 =>
        simp only [he] at h
        cases h
        exact ⟨a, cs, he⟩
      | none => simp only [he] at h; exact ih _ _ h
    · rw [if_neg hc] at h; exact ih _ _ h

/-- Helper: text without `@` admits no match. -/
theorem extract_email_scan_no_at (l : List Char) :
    ∀ accRev, '@' ∉ l → extract_email_scan accRev l = none := by
  induction l with
  | nil => intro a _; rfl
  | cons c cs ih =>
    intro a hl
    have hc : ¬c = '@' := fun h => hl (h ▸ List.mem_cons_self c cs)
    simp only [extract_email_scan, if_neg hc]
    exact ih (c :: a) (fun h => hl (List.mem_cons_of_mem c h))

end Utils

namespace Resume

/-- Helper: a successful match attempt of the dotless email pattern
yields `local@domain` with the advertised character classes. -/
theorem emailAtR_some (accRev after m : List Char)
    (h : emailAtR accRev after = some m) :
    ∃ loc dom : List Char,
      m = loc ++ '@' :: dom ∧ loc ≠ [] ∧ dom ≠ []
      ∧ (∀ c ∈ loc, isEmailChar c = true) ∧ (∀ c ∈ dom, isEmailChar c = true) := by
  simp only [emailAtR] at h
  by_cases h0 : (accRev.takeWhile isEmailChar).reverse = [] ∨ after.takeWhile isEmailChar = []
  · have : ((accRev.takeWhile isEmailChar).reverse = [] || after.takeWhile isEmailChar = []) = true := by
      rcases h0 with h0 | h0 <;> simp [h0]
    rw [if_pos this] at h; cases h
  · push_neg at h0
    have : ((accRev.takeWhile isEmailChar).reverse = [] || after.takeWhile isEmailChar = []) = false := by
      simp [h0.1, h0.2]
    rw [this] at h
    simp only [Bool.false_eq_true, if_false, Option.some.injEq] at h
    refine ⟨_, _, h.symm, h0.1, h0.2, ?_, ?_⟩
    · intro c hc
      rw [List.mem_reverse] at hc
      exact List.mem_takeWhile_imp hc
    · intro c hc
      exact List.mem_takeWhile_imp hc

/-- Helper: every successful scan result comes from some match attempt. -/
theorem extract_emailR_scan_some (l : List Char) :
    ∀ accRev m, extract_email_scan accRev l = some m →
      ∃ a b, emailAtR a b = some m := by
  induction l with
  | nil => intro a m h; cases h
  | cons c cs ih =>
    intro a m h
    simp only [extract_email_scan] at h
    by_cases hc : c = '@'
    · rw [if_pos hc] at h
      cases he : emailAtR a cs with
      | some m2 =>
        simp only [he] at h
        cases h
        exact ⟨a, cs, he⟩
      | none => simp only [he] at h; exact ih _ _ h
    · rw [if_neg hc] at h; exact ih _ _ h

/-- Helper: text without `@` admits no match. -/
theorem extract_emailR_scan_no_at (l : List Char) :
    ∀ accRev, '@' ∉ l → extract_email_scan accRev l = none := by
  induction l with
  | nil => intro a _; rfl
  | cons c cs ih =>
    intro a hl
    have hc : ¬c = '@' := fun h => hl (h ▸ List.mem_cons_self c cs)
    simp only [extract_email_scan, if_neg hc]
    exact ih (c :: a) (fun h => hl (List.mem_cons_of_mem c h))

end Resume

/-- C7 (counterexample): on `"user@host"` — a text containing no
substring of the claimed dotted form — the email extractor of
`resume_parser.py` (the one `parse_resume` calls) returns
`"user@host"`, whose domain contains no dot at all, instead of none;
the `utils.py` extractor does return none. -/
theorem C7_counterexample :
    Resume.extract_email ("user@host") = some ("user@host")
    ∧ ("user@host" : String).data.contains '.' = false
    ∧ Utils.extract_email ("user@host") = none :=
  ⟨by decide, by decide, by decide⟩

/-- C7 (amended): the `utils.py` email extractor returns the first
substring of the form `local@pre.suffix` (local part and `pre` non-empty
over word characters, dots and hyphens; suffix a non-empty word-character
run), so its returned domain always contains a dot; the
`resume_parser.py` variant — the one `parse_resume` actually calls —
requires no dot: it returns the first `local@domain` substring over the
same character class.  Both return none on any text without an `@`
character. -/
theorem C7_amended :
    (∀ t : String, '@' ∉ t.data →
        Utils.extract_email t = none ∧ Resume.extract_email t = none)
    ∧ (∀ t m : String, Utils.extract_email t = some m →
        ∃ loc pre suf : List Char,
          m.data = loc ++ '@' :: (pre ++ '.' :: suf)
          ∧ loc ≠ [] ∧ pre ≠ [] ∧ suf ≠ []
          ∧ (∀ c ∈ loc, isEmailChar c = true) ∧ (∀ c ∈ pre, isEmailChar c = true)
          ∧ (∀ c ∈ suf, isWordA c = true))
    ∧ (∀ t m : String, Resume.extract_email t = some m →
        ∃ loc dom : List Char,
          m.data = loc ++ '@' :: dom ∧ loc ≠ [] ∧ dom ≠ []
          ∧ (∀ c ∈ loc, isEmailChar c = true) ∧ (∀ c ∈ dom, isEmailChar c = true))
    ∧ Resume.extract_email ("user@host") = some ("user@host") := by
  refine ⟨?_, ?_, ?_, by decide⟩
  · intro t ht
    constructor
    · simp only [Utils.extract_email, Utils.extract_email_scan_no_at t.data [] ht,
        Option.map_none']
    · simp only [Resume.extract_email, Resume.extract_emailR_scan_no_at t.data [] ht,
        Option.map_none']
  · intro t m h
    simp only [Utils.extract_email, Option.map_eq_some'] at h
    obtain ⟨ml, hml, hm⟩ := h
    obtain ⟨a, b, hab⟩ := Utils.extract_email_scan_some t.data [] ml hml
    obtain ⟨loc, pre, suf, hstr, h1, h2, h3, h4, h5, h6⟩ :=
      Utils.emailAtU_some a b ml hab
    refine ⟨loc, pre, suf, ?_, h1, h2, h3, h4, h5, h6⟩
    rw [← hm, ← hstr]
  · intro t m h
    simp only [Resume.extract_email, Option.map_eq_some'] at h
    obtain ⟨ml, hml, hm⟩ := h
    obtain ⟨a, b, hab⟩ := Resume.extract_emailR_scan_some t.data [] ml hml
    obtain ⟨loc, dom, hstr, h1, h2, h3, h4⟩ := Resume.emailAtR_some a b ml hab
    refine ⟨loc, dom, ?_, h1, h2, h3, h4⟩
    rw [← hm, ← hstr]

/-- C7 witness: the amended theorem applied at a concrete input. -/
theorem C7_witness :
    Utils.extract_email ("no email here") = none
    ∧ Resume.extract_email ("no email here") = none :=
  C7_amended.1 ("no email here") (by decide)

namespace Resume

/-- Helper: a character of the collapsed text is a space or a
non-whitespace character of the input. -/
theorem collapseWSAux_chars (l : List Char) :
    ∀ b c, c ∈ collapseWSAux b l → c = ' ' ∨ (c ∈ l ∧ isSpaceA c = false) := by
  induction l with
  | nil => intro b c h; cases h
  | cons a cs ih =>
    intro b c h
    simp only [collapseWSAux] at h
    by_cases ha : isSpaceA a = true
    · rw [if_pos ha] at h
      cases b with
      | true =>
        rw [if_pos rfl] at h
        rcases ih true c h with h1 | ⟨h2, h3⟩
        · exact Or.inl h1
        · exact Or.inr ⟨List.mem_cons_of_mem a h2, h3⟩
      | false =>
        rw [if_neg (by simp)] at h
        rcases List.mem_cons.mp h with h1 | h1
        · exact Or.inl h1
        · rcases ih true c h1 with h2 | ⟨h2, h3⟩
          · exact Or.inl h2
          · exact Or.inr ⟨List.mem_cons_of_mem a h2, h3⟩
    · rw [if_neg ha] at h
      rcases List.mem_cons.mp h with h1 | h1
      · subst h1
        refine Or.inr ⟨List.mem_cons_self c cs, ?_⟩
        revert ha
        cases isSpaceA c <;> simp
      · rcases ih false c h1 with h2 | ⟨h2, h3⟩
        · exact Or.inl h2
        · exact Or.inr ⟨List.mem_cons_of_mem a h2, h3⟩

/-- Helper: the quote normalization only produces a newline from a
newline. -/
theorem quoteMap_newline (d : Char) (h : quoteMap d = '\n') : d = '\n' := by
  unfold quoteMap at h
  split at h
  · exact absurd h (by decide)
  · split at h
    · exact absurd h (by decide)
    · exact h

/-- Helper: characters of the stripped text come from the input. -/
theorem mem_pyStrip (l : List Char) (c : Char) (h : c ∈ pyStrip l) : c ∈ l := by
  unfold pyStrip at h
  rw [List.mem_reverse] at h
  have h2 : c ∈ (l.dropWhile isSpaceA).reverse := (List.dropWhile_sublist _).subset h
  rw [List.mem_reverse] at h2
  exact (List.dropWhile_sublist _).subset h2

/-- Helper: characters of a substituted text come from the input or the
replacement. -/
theorem substAux_chars (k0 : Char) (kt repl : List Char) :
    ∀ n l prevW c, l.length ≤ n → c ∈ substAux k0 kt repl prevW l →
      c ∈ repl ∨ c ∈ l := by
  intro n
  induction n with
  | zero =>
    intro l prevW c hl hc
    have hnil : l = [] := List.eq_nil_of_length_eq_zero (Nat.le_zero.mp hl)
    subst hnil
    simp only [substAux] at hc
    cases hc
  | succ n ih =>
    intro l prevW c hl hc
    cases l with
    | nil => simp only [substAux] at hc; cases hc
    | cons a cs =>
      simp only [substAux] at hc
      by_cases hcond : (!prevW && ciMatches (k0 :: kt) (a :: cs)
          && optNonWord (cs.drop kt.length).head?) = true
      · rw [if_pos hcond] at hc
        rcases List.mem_append.mp hc with h1 | h1
        · exact Or.inl h1
        · have hlen : (cs.drop kt.length).length ≤ n := by
            simp only [List.length_cons] at hl
            simp only [List.length_drop]
            omega
          rcases ih (cs.drop kt.length) _ c hlen h1 with h2 | h2
          · exact Or.inl h2
          · exact Or.inr (List.mem_cons_of_mem a (List.mem_of_mem_drop h2))
      · rw [if_neg hcond] at hc
        rcases List.mem_cons.mp hc with h1 | h1
        · subst h1; exact Or.inr (List.mem_cons_self c cs)
        · have hlen : cs.length ≤ n := by
            simp only [List.length_cons] at hl
            omega
          rcases ih cs _ c hlen h1 with h2 | h2
          · exact Or.inl h2
          · exact Or.inr (List.mem_cons_of_mem a h2)

/-- Helper: `substWord` character provenance. -/
theorem substWord_chars (key repl l : List Char) (c : Char)
    (hc : c ∈ substWord key repl l) : c ∈ repl ∨ c ∈ l := by
  cases key with
  | nil => exact Or.inr hc
  | cons k0 kt => exact substAux_chars k0 kt repl l.length l false c (le_refl _) hc

/-- Helper: characters after the correction fold come from the input or
from one of the replacement strings. -/
theorem corrections_chars (pairs : List (List Char × List Char)) :
    ∀ l c,
      c ∈ pairs.foldl
        (fun t kr => if occursWord kr.1 t then substWord kr.1 kr.2 t else t) l →
      c ∈ l ∨ ∃ kr ∈ pairs, c ∈ kr.2 := by
  induction pairs with
  | nil => intro l c h; exact Or.inl h
  | cons kr rest ih =>
    intro l c h
    simp only [List.foldl_cons] at h
    rcases ih _ c h with h1 | ⟨kr2, hkr2, hc2⟩
    · by_cases ho : occursWord kr.1 l = true
      · rw [if_pos ho] at h1
        rcases substWord_chars kr.1 kr.2 l c h1 with h2 | h2
        · exact Or.inr ⟨kr, List.mem_cons_self kr rest, h2⟩
        · exact Or.inl h2
      · rw [if_neg ho] at h1
        exact Or.inl h1
    · exact Or.inr ⟨kr2, List.mem_cons_of_mem kr hkr2, hc2⟩

/-- Helper: the OCR normalizer never outputs a newline. -/
theorem clean_ocr_text_no_newline (s : String) (c : Char)
    (hc : c ∈ (clean_ocr_text s).data) : c ≠ '\n' := by
  intro hn
  subst hn
  simp only [clean_ocr_text] at hc
  rcases corrections_chars OCR_CORRECTIONS _ '\n' hc with h1 | ⟨kr, hkr, hrep⟩
  · have h2 := mem_pyStrip _ _ h1
    rcases List.mem_map.mp h2 with ⟨d, hd, hq⟩
    have hdn : d = '\n' := quoteMap_newline d hq
    subst hdn
    rcases collapseWSAux_chars _ _ _ hd with h3 | ⟨_, h4⟩
    · exact absurd h3 (by decide)
    · exact absurd h4 (by decide)
  · have hnotin : ∀ kr ∈ OCR_CORRECTIONS, '\n' ∉ kr.2 := by decide
    exact hnotin kr hkr hrep

end Resume

/-- C9: the OCR-variant normalizer returns a string containing no
newline characters: every whitespace run (including newlines) is
collapsed to a single space before trimming, so line structure is not
preserved — e.g. `"a\n\nb"` becomes `"a b"`. -/
theorem C9_ocr_no_newline :
    (∀ (s : String), ∀ c ∈ (Resume.clean_ocr_text s).data, c ≠ '\n')
    ∧ Resume.clean_ocr_text ("a\n\nb") = ("a b") :=
  ⟨fun s c hc => Resume.clean_ocr_text_no_newline s c hc, by decide⟩

/-- C9 witness: the theorem applied at a concrete input and character. -/
theorem C9_witness : 'a' ≠ '\n' :=
  C9_ocr_no_newline.1 ("ab") 'a' (by decide)

/-- C3 (counterexample): the record returned by `parse_resume` has no
`name` field, and has `certifications` and `references` fields that the
claim does not allow. -/
theorem C3_counterexample :
    Resume.parse_resume ("r.pdf") ("") ("")
      = Except.ok (Resume.assembleResult (Resume.clean_ocr_text ("")))
    ∧ ((Resume.assembleResult (Resume.clean_ocr_text (""))).map
        Prod.fst).contains ("name") = false
    ∧ ((Resume.assembleResult (Resume.clean_ocr_text (""))).map
        Prod.fst).contains ("certifications") = true
    ∧ ((Resume.assembleResult (Resume.clean_ocr_text (""))).map
        Prod.fst).contains ("references") = true :=
  ⟨by decide, by decide, by decide, by decide⟩

/-- C3 (amended): for every supported input document, `parse_resume`
returns a record with exactly the fields email, phone, skills,
education, certifications, experience, projects, publications,
references — in that order; email and phone are optional strings and
every other field (including experience, which holds plain lines rather
than title/details records) is a sequence of strings.  There is no name
field. -/
theorem C3_amended (path pdfRaw docxRaw : String)
    (r : List (String × Resume.FieldValue))
    (h : Resume.parse_resume path pdfRaw docxRaw = Except.ok r) :
    r.map Prod.fst
      = [("email"), ("phone"), ("skills"), ("education"), ("certifications"),
         ("experience"), ("projects"), ("publications"), ("references")]
    ∧ ∃ e p sk ed ce ex pr pu rf,
        r = [(("email"), Resume.FieldValue.optStr e),
             (("phone"), Resume.FieldValue.optStr p),
             (("skills"), Resume.FieldValue.strs sk),
             (("education"), Resume.FieldValue.strs ed),
             (("certifications"), Resume.FieldValue.strs ce),
             (("experience"), Resume.FieldValue.strs ex),
             (("projects"), Resume.FieldValue.strs pr),
             (("publications"), Resume.FieldValue.strs pu),
             (("references"), Resume.FieldValue.strs rf)] := by
  unfold Resume.parse_resume at h
  have hr : ∃ t, r = Resume.assembleResult t := by
    by_cases h1 : Resume.pyEndsWith path (".pdf") = true
    · rw [if_pos h1] at h
      cases h
      exact ⟨_, rfl⟩
    · rw [if_neg h1] at h
      by_cases h2 : Resume.pyEndsWith path (".docx") = true
      · rw [if_pos h2] at h
        cases h
        exact ⟨_, rfl⟩
      · rw [if_neg h2] at h
        cases h
  obtain ⟨t, rfl⟩ := hr
  exact ⟨rfl, _, _, _, _, _, _, _, _, _, rfl⟩

/-- C3 witness: the amended theorem applied at a concrete input. -/
theorem C3_witness :
    (Resume.assembleResult ("")).map Prod.fst
      = [("email"), ("phone"), ("skills"), ("education"), ("certifications"),
         ("experience"), ("projects"), ("publications"), ("references")] :=
  (C3_amended ("a.docx") ("") ("") (Resume.assembleResult ("")) (by decide)).1

/-- C8 (counterexample): `parse_resume` dispatches with Python's
case-sensitive `endswith`, so a path with an upper-case `.PDF` extension
— accepted under the claim's case-insensitive reading — is rejected with
the unsupported-format error. -/
theorem C8_counterexample :
    Resume.parse_resume ("resume.PDF") ("ignored") ("ignored")
      = Except.error ("Unsupported file type") := by
  decide

/-- C8 (amended): `parse_resume` accepts exactly the paths ending in the
lower-case extensions `.pdf` or `.docx` (case-sensitive `endswith`); for
any other path it fails with the unsupported-format error, uniformly in
the extracted document texts (so no extraction or section processing can
influence the outcome and no partial result is produced). -/
theorem C8_amended :
    (∀ path pdfRaw docxRaw : String,
        (∃ r, Resume.parse_resume path pdfRaw docxRaw = Except.ok r)
          ↔ (Resume.pyEndsWith path (".pdf") = true ∨ Resume.pyEndsWith path (".docx") = true))
    ∧ (∀ path pdfRaw docxRaw : String,
        Resume.pyEndsWith path (".pdf") = false → Resume.pyEndsWith path (".docx") = false →
        Resume.parse_resume path pdfRaw docxRaw
          = Except.error ("Unsupported file type"))
    ∧ Resume.parse_resume ("resume.txt") ("x") ("y")
        = Except.error ("Unsupported file type") := by
  refine ⟨?_, ?_, by decide⟩
  · intro path pdfRaw docxRaw
    unfold Resume.parse_resume
    constructor
    · intro ⟨r, hr⟩
      by_cases h1 : Resume.pyEndsWith path (".pdf") = true
      · exact Or.inl h1
      · rw [if_neg h1] at hr
        by_cases h2 : Resume.pyEndsWith path (".docx") = true
        · exact Or.inr h2
        · rw [if_neg h2] at hr
          cases hr
    · intro h
      by_cases h1 : Resume.pyEndsWith path (".pdf") = true
      · rw [if_pos h1]
        exact ⟨_, rfl⟩
      · rcases h with h | h
        · exact absurd h h1
        · rw [if_neg h1, if_pos h]
          exact ⟨_, rfl⟩
  · intro path pdfRaw docxRaw h1 h2
    unfold Resume.parse_resume
    rw [if_neg (by simp [h1]), if_neg (by simp [h2])]

/-- C8 witness: the amended theorem applied at a concrete input. -/
theorem C8_witness :
    Resume.parse_resume ("a.md") ("p") ("d")
      = Except.error ("Unsupported file type") :=
  C8_amended.2.1 ("a.md") ("p") ("d") (by decide) (by decide)

/-- Helper: the head of a `dropWhile` fails the predicate. -/
theorem dropWhile_head_not (p : Char → Bool) (l : List Char) :
    ∀ c, (l.dropWhile p).head? = some c → p c = false := by
  induction l with
  | nil => intro c h; cases h
  | cons a t ih =>
    intro c h
    by_cases ha : p a = true
    · rw [List.dropWhile_cons_of_pos ha] at h
      exact ih c h
    · rw [List.dropWhile_cons_of_neg ha] at h
      simp only [List.head?_cons, Option.some.injEq] at h
      subst h
      revert ha
      cases p a <;> simp

/-- Helper: `dropWhile` is the identity when the head already fails. -/
theorem dropWhile_eq_self_of_head (p : Char → Bool) (l : List Char)
    (h : ∀ c, l.head? = some c → p c = false) : l.dropWhile p = l := by
  cases l with
  | nil => rfl
  | cons a t =>
    have := h a rfl
    rw [List.dropWhile_cons_of_neg (by simp [this])]

/-- Helper: `pyStrip` is the identity on edge-clean text. -/
theorem pyStrip_eq_self (l : List Char) (h : edgeOk l) : pyStrip l = l := by
  unfold pyStrip
  rw [dropWhile_eq_self_of_head _ _ h.1]
  rw [dropWhile_eq_self_of_head _ _
    (fun c hc => h.2 c (by rwa [List.head?_reverse] at hc))]
  exact List.reverse_reverse l

/-- Helper: `pyStrip` output is edge-clean. -/
theorem edgeOk_pyStrip (l : List Char) : edgeOk (pyStrip l) := by
  constructor
  · intro c hc
    unfold pyStrip at hc
    rw [List.head?_reverse] at hc
    have hne : ((l.dropWhile isSpaceA).reverse.dropWhile isSpaceA) ≠ [] := by
      intro he
      rw [he] at hc
      cases hc
    have hdec := List.takeWhile_append_dropWhile isSpaceA (l.dropWhile isSpaceA).reverse
    have hlast : ((l.dropWhile isSpaceA).reverse).getLast? = some c := by
      conv_lhs => rw [← hdec]
      rwa [List.getLast?_append_of_ne_nil _ hne]
    rw [List.getLast?_reverse] at hlast
    exact dropWhile_head_not _ _ c hlast
  · intro c hc
    unfold pyStrip at hc
    rw [List.getLast?_reverse] at hc
    exact dropWhile_head_not _ _ c hc

/-- Helper: the quote normalization is idempotent on characters. -/
theorem quoteMap_idem (c : Char) : quoteMap (quoteMap c) = quoteMap c := by
  unfold quoteMap
  split
  · decide
  · split
    · decide
    · rfl

/-- Helper: the quote normalization does not change whitespace-ness. -/
theorem quoteMap_space (c : Char) : isSpaceA (quoteMap c) = isSpaceA c := by
  unfold quoteMap
  split
  · rename_i h1
    rcases Bool.or_eq_true .. |>.mp h1 with h | h <;>
      · rw [show c = _ from of_decide_eq_true h]
        decide
  · split
    · rename_i h2
      rcases Bool.or_eq_true .. |>.mp h2 with h | h <;>
        · rw [show c = _ from of_decide_eq_true h]
          decide
    · rfl

/-- Helper: any character other than the two straight quotes is only
produced by `quoteMap` from itself. -/
theorem quoteMap_fix (c t : Char) (h34 : t ≠ Char.ofNat 34)
    (h39 : t ≠ Char.ofNat 39) (h : quoteMap c = t) : c = t := by
  unfold quoteMap at h
  split at h
  · exact absurd h.symm h34
  · split at h
    · exact absurd h.symm h39
    · exact h

namespace Utils

/-- Helper: the newline normalization leaves no carriage return. -/
theorem normNewlines_no_cr (l : List Char) : ∀ c ∈ normNewlines l, c ≠ '\r' := by
  have key : ∀ n l, List.length l ≤ n → ∀ c ∈ normNewlines l, c ≠ '\r' := by
    intro n
    induction n with
    | zero =>
      intro l hl c hc
      have : l = [] := List.eq_nil_of_length_eq_zero (Nat.le_zero.mp hl)
      subst this
      cases hc
    | succ n ih =>
      intro l hl c hc
      match l with
      | [] => cases hc
      | [a] =>
        simp only [normNewlines] at hc
        by_cases ha : a = '\r'
        · rw [if_pos ha] at hc
          simp only [List.mem_singleton] at hc
          subst hc
          decide
        · rw [if_neg ha] at hc
          simp only [List.mem_singleton] at hc
          subst hc
          exact ha
      | a :: d :: rest =>
        simp only [normNewlines] at hc
        simp only [List.length_cons] at hl
        by_cases ha : a = '\r'
        · rw [if_pos ha] at hc
          by_cases hd : d = '\n'
          · rw [if_pos hd] at hc
            rcases List.mem_cons.mp hc with h1 | h1
            · subst h1; decide
            · exact ih rest (by omega) c h1
          · rw [if_neg hd] at hc
            rcases List.mem_cons.mp hc with h1 | h1
            · subst h1; decide
            · exact ih (d :: rest) (by simp; omega) c h1
        · rw [if_neg ha] at hc
          rcases List.mem_cons.mp hc with h1 | h1
          · subst h1; exact ha
          · exact ih (d :: rest) (by simp; omega) c h1
  exact key l.length l (le_refl _)

/-- Helper: the newline normalization is the identity on
carriage-return-free text. -/
theorem normNewlines_eq_self (l : List Char) (h : ∀ c ∈ l, c ≠ '\r') :
    normNewlines l = l := by
  have key : ∀ n l, List.length l ≤ n → (∀ c ∈ l, c ≠ '\r') →
      normNewlines l = l := by
    intro n
    induction n with
    | zero =>
      intro l hl _
      have : l = [] := List.eq_nil_of_length_eq_zero (Nat.le_zero.mp hl)
      subst this
      rfl
    | succ n ih =>
      intro l hl hcr
      match l with
      | [] => rfl
      | [a] =>
        have ha := hcr a (List.mem_singleton.mpr rfl)
        simp only [normNewlines, if_neg ha]
      | a :: d :: rest =>
        have ha := hcr a (List.mem_cons_self a (d :: rest))
        simp only [List.length_cons] at hl
        simp only [normNewlines, if_neg ha]
        rw [ih (d :: rest) (by simp; omega)
          (fun c hc => hcr c (List.mem_cons_of_mem a hc))]
  exact key l.length l (le_refl _) h

/-- Helper: one application of `clean_text`'s pipeline is a fixed point
of each of its stages. -/
theorem clean_text_idem_data (l : List Char) :
    pyStrip (List.map quoteMap
      (normNewlines (pyStrip (List.map quoteMap (normNewlines l)))))
      = pyStrip (List.map quoteMap (normNewlines l)) := by
  have h1 : normNewlines (pyStrip (List.map quoteMap (normNewlines l)))
      = pyStrip (List.map quoteMap (normNewlines l)) := by
    apply normNewlines_eq_self
    intro c hc hcr
    subst hcr
    have h2 := Resume.mem_pyStrip _ _ hc
    rcases List.mem_map.mp h2 with ⟨d, hd, hq⟩
    have hdr : d = '\r' := quoteMap_fix d '\r' (by decide) (by decide) hq
    subst hdr
    exact normNewlines_no_cr l '\r' hd rfl
  rw [h1]
  have h2 : List.map quoteMap (pyStrip (List.map quoteMap (normNewlines l)))
      = pyStrip (List.map quoteMap (normNewlines l)) := by
    have hall : ∀ c ∈ pyStrip (List.map quoteMap (normNewlines l)),
        quoteMap c = c := by
      intro c hc
      have h3 := Resume.mem_pyStrip _ _ hc
      rcases List.mem_map.mp h3 with ⟨d, _, hq⟩
      rw [← hq, quoteMap_idem]
    rw [List.map_congr_left hall]
    exact List.map_id' _
  rw [h2]
  exact pyStrip_eq_self _ (edgeOk_pyStrip _)

/-- Helper: `clean_text` is idempotent. -/
theorem clean_text_idem (s : String) :
    clean_text (clean_text s) = clean_text s := by
  unfold clean_text
  exact congrArg String.mk (clean_text_idem_data s.data)

end Utils

namespace Resume

/-- Helper: `Char.ofNat` round-trips on small code points. -/
theorem char_toNat_ofNat (n : Nat) (h : n < 0xd800) : (Char.ofNat n).toNat = n := by
  have hv : n.isValidChar := Or.inl h
  simp [Char.ofNat, hv, Char.ofNatAux, Char.toNat, UInt32.toNat, BitVec.toNat_ofNatLt]

/-- Helper: ASCII case folding does not change word-character-ness. -/
theorem isWordA_lowerA (c : Char) : isWordA (lowerA c) = isWordA c := by
  unfold lowerA
  split
  · rename_i h
    have hv : (Char.ofNat (c.toNat + 32)).toNat = c.toNat + 32 :=
      char_toNat_ofNat _ (by omega)
    simp only [isWordA, hv]
    have h65 : 65 ≤ c.toNat := h.1
    have h90 : c.toNat ≤ 90 := h.2
    have e1 : (48 ≤ c.toNat + 32 && c.toNat + 32 ≤ 57) = false := by
      simp; omega
    have e2 : (65 ≤ c.toNat + 32 && c.toNat + 32 ≤ 90) = false := by
      simp; omega
    have e3 : (97 ≤ c.toNat + 32 && c.toNat + 32 ≤ 122) = true := by
      simp; omega
    have e4 : decide (c.toNat + 32 = 95) = false := by
      simp; omega
    have f1 : (48 ≤ c.toNat && c.toNat ≤ 57) = false := by
      simp; omega
    have f2 : (65 ≤ c.toNat && c.toNat ≤ 90) = true := by
      simp; omega
    rw [e1, e2, e3, e4, f1, f2]
    rfl
  · rfl

/-- Helper: case-insensitively equal characters have the same
word-character-ness. -/
theorem ciChar_word (a b : Char) (h : ciChar a b = true) :
    isWordA a = isWordA b := by
  unfold ciChar at h
  have hl : lowerA a = lowerA b := of_decide_eq_true h
  rw [← isWordA_lowerA a, ← isWordA_lowerA b, hl]

/-- Helper: `ciMatches` distributes over an append of the text. -/
theorem ciMatches_append (K x y : List Char) :
    ciMatches K (x ++ y)
      = (ciMatches (K.take x.length) x && ciMatches (K.drop x.length) y) := by
  induction K generalizing x with
  | nil => cases x <;> simp [ciMatches]
  | cons k ks ih =>
    cases x with
    | nil => simp [ciMatches]
    | cons a as =>
      simp only [List.cons_append, ciMatches, List.length_cons,
        List.take_succ_cons, List.drop_succ_cons, List.append_eq]
      rw [ih as]
      cases ciChar k a <;> simp [ciMatches]

/-- Helper: a `ciMatches` key is no longer than the text. -/
theorem ciMatches_length (K l : List Char) (h : ciMatches K l = true) :
    K.length ≤ l.length := by
  induction K generalizing l with
  | nil => simp
  | cons k ks ih =>
    cases l with
    | nil => simp [ciMatches] at h
    | cons c cs =>
      simp only [ciMatches, Bool.and_eq_true] at h
      simp only [List.length_cons]
      exact Nat.succ_le_succ (ih cs h.2)

/-- Helper: `ciMatches` between equal-length lists is symmetric. -/
theorem ciMatches_flip (x : List Char) :
    ∀ y : List Char, x.length = y.length → ciMatches x y = ciMatches y x := by
  induction x with
  | nil =>
    intro y hlen
    cases y with
    | nil => rfl
    | cons => simp at hlen
  | cons a as ih =>
    intro y hlen
    cases y with
    | nil => simp at hlen
    | cons b bs =>
      simp only [List.length_cons] at hlen
      simp only [ciMatches]
      rw [ih bs (by omega)]
      have hc : ciChar a b = ciChar b a := by
        unfold ciChar
        exact decide_eq_decide.mpr ⟨Eq.symm, Eq.symm⟩
      rw [hc]

/-- Helper: a match of the prefix extends to the full text. -/
theorem ciMatches_extend (X y : List Char) (hlen : X.length ≤ y.length)
    (h : ciMatches X (y.take X.length) = true) : ciMatches X y = true := by
  conv_lhs => rw [← List.take_append_drop X.length y]
  rw [ciMatches_append]
  have hl : (y.take X.length).length = X.length := by
    rw [List.length_take]
    omega
  rw [hl, List.take_length, List.drop_length]
  simp [ciMatches, h]

/-- Helper: equal-length case-insensitively equal lists have the same
last-character word-ness. -/
theorem ciMatches_wordLast (x : List Char) :
    ∀ y : List Char, ciMatches x y = true → x.length = y.length →
      wordLastOpt x = wordLastOpt y := by
  induction x with
  | nil =>
    intro y _ hlen
    cases y with
    | nil => rfl
    | cons => simp at hlen
  | cons a as ih =>
    intro y h hlen
    cases y with
    | nil => simp at hlen
    | cons b bs =>
      simp only [ciMatches, Bool.and_eq_true] at h
      simp only [List.length_cons] at hlen
      cases as with
      | nil =>
        cases bs with
        | nil =>
          simp only [wordLastOpt, List.getLast?_singleton]
          exact ciChar_word a b h.1
        | cons => simp at hlen
      | cons a2 as2 =>
        cases bs with
        | nil => simp at hlen
        | cons b2 bs2 =>
          rw [show wordLastOpt (a :: a2 :: as2) = wordLastOpt (a2 :: as2) by
              simp [wordLastOpt, List.getLast?_cons_cons],
            show wordLastOpt (b :: b2 :: bs2) = wordLastOpt (b2 :: bs2) by
              simp [wordLastOpt, List.getLast?_cons_cons]]
          exact ih (b2 :: bs2) h.2 (by simpa using hlen)

/-- Helper: `lastW` on an empty list. -/
theorem lastW_nil (pw : Bool) : lastW pw [] = pw := rfl

/-- Helper: `lastW` steps through a cons. -/
theorem lastW_cons (pw : Bool) (c : Char) (x : List Char) :
    lastW pw (c :: x) = lastW (isWordA c) x := by
  cases x with
  | nil => rfl
  | cons d t =>
    unfold lastW
    rw [List.getLast?_cons_cons]
    cases h : (d :: t).getLast? with
    | some e => rfl
    | none => simp [List.getLast?_eq_none_iff] at h

/-- Helper: `lastW` composes over appends. -/
theorem lastW_append (pw : Bool) (u v : List Char) :
    lastW pw (u ++ v) = lastW (lastW pw u) v := by
  induction u generalizing pw with
  | nil => rfl
  | cons c u' ih => rw [List.cons_append, lastW_cons, ih, lastW_cons]

/-- Helper: on a non-empty list, `lastW` ignores the inherited state. -/
theorem lastW_of_ne_nil (pw : Bool) (x : List Char) (h : x ≠ []) :
    lastW pw x = wordLastOpt x := by
  unfold lastW wordLastOpt
  cases hx : x.getLast? with
  | some c => rfl
  | none =>
    rw [List.getLast?_eq_none_iff] at hx
    exact absurd hx h

end Resume

namespace Resume

/-- Helper: the Boolean form of a head match. -/
theorem headMatch_iff (key : List Char) (pw : Bool) (l : List Char) :
    headMatch key pw l
      ↔ (!pw && ciMatches key l && optNonWord (l.drop key.length).head?) = true := by
  unfold headMatch
  cases pw <;> simp

/-- Helper: an empty text admits no match of a non-empty key. -/
theorem not_hasMatch_nil (k0 : Char) (kt : List Char) (pw : Bool) :
    ¬hasMatch (k0 :: kt) pw [] := by
  intro hm
  exact absurd hm.2.1 (by simp [ciMatches])

/-- Helper: a match over an append starts inside the left part or lies
in the right part. -/
theorem hasMatch_append_elim (key : List Char) (u : List Char) :
    ∀ pw w, hasMatch key pw (u ++ w) →
      (∃ p1 p2, u = p1 ++ p2 ∧ p2 ≠ [] ∧ headMatch key (lastW pw p1) (p2 ++ w))
      ∨ hasMatch key (lastW pw u) w := by
  induction u with
  | nil =>
    intro pw w h
    exact Or.inr h
  | cons c u' ih =>
    intro pw w h
    rw [List.cons_append] at h
    simp only [hasMatch] at h
    rcases h with h | h
    · refine Or.inl ⟨[], c :: u', rfl, by simp, ?_⟩
      rw [lastW_nil, List.cons_append]
      exact h
    · rcases ih (isWordA c) w h with ⟨p1, p2, hsplit, hne, hm⟩ | hm
      · refine Or.inl ⟨c :: p1, p2, by simp [hsplit], hne, ?_⟩
        rwa [lastW_cons]
      · right
        rwa [lastW_cons]

/-- Helper: a match in the right part of an append is a match of the
whole. -/
theorem hasMatch_append_intro (key : List Char) (u : List Char) :
    ∀ pw w, hasMatch key (lastW pw u) w → hasMatch key pw (u ++ w) := by
  induction u with
  | nil => intro pw w h; exact h
  | cons c u' ih =>
    intro pw w h
    rw [List.cons_append]
    simp only [hasMatch]
    right
    exact ih (isWordA c) w (by rwa [lastW_cons] at h)

/-- Helper: a head match at an interior position is a match of the
whole. -/
theorem hasMatch_at (key u : List Char) :
    ∀ pw w, headMatch key (lastW pw u) w → hasMatch key pw (u ++ w) := by
  induction u with
  | nil =>
    intro pw w h
    cases w with
    | nil => exact h
    | cons d ds =>
      simp only [List.nil_append, hasMatch]
      exact Or.inl h
  | cons c u' ih =>
    intro pw w h
    rw [List.cons_append]
    simp only [hasMatch]
    right
    exact ih (isWordA c) w (by rwa [lastW_cons] at h)

/-- Helper: the search scan finds exactly the word-bounded
case-insensitive occurrences. -/
theorem occursAux_iff (k0 : Char) (kt : List Char) (l : List Char) :
    ∀ pw, occursAux k0 kt pw l = true ↔ hasMatch (k0 :: kt) pw l := by
  induction l with
  | nil =>
    intro pw
    simp only [occursAux]
    constructor
    · intro h; cases h
    · intro h
      exact absurd h (not_hasMatch_nil _ _ _)
  | cons c cs ih =>
    intro pw
    simp only [occursAux, hasMatch, Bool.or_eq_true]
    constructor
    · intro h
      rcases h with h | h
      · left
        rw [headMatch_iff]
        simpa using h
      · right
        exact (ih _).mp h
    · intro h
      rcases h with h | h
      · left
        rw [headMatch_iff] at h
        simpa using h
      · right
        exact (ih _).mpr h

/-- Helper: `substAux` either changes nothing (and there is no match) or
splits off the leftmost match with its surroundings. -/
theorem substAux_decomp (k0 : Char) (kt R : List Char) :
    ∀ n l pw, l.length ≤ n →
      (substAux k0 kt R pw l = l ∧ ¬hasMatch (k0 :: kt) pw l)
      ∨ (∃ pre m rest,
          l = pre ++ m ++ rest
          ∧ m.length = (k0 :: kt).length
          ∧ ciMatches (k0 :: kt) m = true
          ∧ lastW pw pre = false
          ∧ optNonWord rest.head? = true
          ∧ (∀ p1 p2, pre = p1 ++ p2 → p2 ≠ [] →
              ¬headMatch (k0 :: kt) (lastW pw p1) (p2 ++ m ++ rest))
          ∧ substAux k0 kt R pw l
              = pre ++ R ++ substAux k0 kt R (isWordA (kt.getLastD k0)) rest) := by
  intro n
  induction n with
  | zero =>
    intro l pw hl
    have hnil : l = [] := List.eq_nil_of_length_eq_zero (Nat.le_zero.mp hl)
    subst hnil
    left
    exact ⟨by simp [substAux], not_hasMatch_nil _ _ _⟩
  | succ n ih =>
    intro l pw hl
    cases l with
    | nil =>
      left
      exact ⟨by simp [substAux], not_hasMatch_nil _ _ _⟩
    | cons c cs =>
      by_cases hB : (!pw && ciMatches (k0 :: kt) (c :: cs)
          && optNonWord (cs.drop kt.length).head?) = true
      · right
        have hB' := hB
        simp only [Bool.and_eq_true, Bool.not_eq_true'] at hB'
        obtain ⟨⟨hpw, hci⟩, hnw⟩ := hB'
        have hlen2 : (k0 :: kt).length ≤ (c :: cs).length := ciMatches_length _ _ hci
        have hdrop : (c :: cs).drop (k0 :: kt).length = cs.drop kt.length := by
          simp [List.length_cons]
        have htd := List.take_append_drop (k0 :: kt).length (c :: cs)
        have hlt : ((c :: cs).take (k0 :: kt).length).length = (k0 :: kt).length := by
          rw [List.length_take]
          omega
        refine ⟨[], (c :: cs).take (k0 :: kt).length, cs.drop kt.length,
          ?_, hlt, ?_, hpw, hnw, ?_, ?_⟩
        · rw [List.nil_append, ← hdrop, htd]
        · rw [← htd, ciMatches_append, hlt, List.take_length, List.drop_length] at hci
          simp only [Bool.and_eq_true] at hci
          exact hci.1
        · intro p1 p2 hsp hne
          have h0 := List.append_eq_nil.mp hsp.symm
          exact fun _ => hne h0.2
        · simp only [substAux, if_pos hB]
          rw [List.nil_append]
      · rcases ih cs (isWordA c) (by simp only [List.length_cons] at hl; omega)
          with ⟨heq, hno⟩ | ⟨pre, m, rest, hsplit, hmlen, hmci, hpre, hpost, hmin, hout⟩
        · left
          constructor
          · simp only [substAux, if_neg hB]
            rw [heq]
          · intro hm
            simp only [hasMatch] at hm
            rcases hm with hm | hm
            · rw [headMatch_iff] at hm
              apply hB
              simpa using hm
            · exact hno hm
        · right
          refine ⟨c :: pre, m, rest, by simp [hsplit], hmlen, hmci,
            ?_, hpost, ?_, ?_⟩
          · rwa [lastW_cons]
          · intro p1 p2 hsplit2 hne
            cases p1 with
            | nil =>
              simp only [List.nil_append] at hsplit2
              subst hsplit2
              intro hhm
              rw [headMatch_iff] at hhm
              rw [lastW_nil] at hhm
              simp only [List.cons_append] at hhm
              rw [← hsplit] at hhm
              apply hB
              simpa using hhm
            | cons c' p1' =>
              simp only [List.cons_append, List.cons.injEq] at hsplit2
              obtain ⟨hc', hpre2⟩ := hsplit2
              subst hc'
              rw [lastW_cons]
              exact hmin p1' p2 hpre2 hne
          · simp only [substAux, if_neg hB]
            rw [hout, List.cons_append, List.cons_append]

end Resume

namespace Resume

/-- Helper: head of an append with non-empty left part. -/
theorem head?_append_left (l1 l2 : List Char) (h : l1 ≠ []) :
    (l1 ++ l2).head? = l1.head? := by
  cases l1 with
  | nil => exact absurd rfl h
  | cons a t => rfl

/-- Helper: an empty text admits no match of any non-empty key. -/
theorem not_hasMatch_nil2 (key : List Char) (hne : key ≠ []) (pw : Bool) :
    ¬hasMatch key pw [] := by
  cases key with
  | nil => exact absurd rfl hne
  | cons k ks => exact not_hasMatch_nil k ks pw

/-- Helper: `wordLastOpt` of a cons, in `getLastD` form. -/
theorem wordLastOpt_cons (k0 : Char) (kt : List Char) :
    wordLastOpt (k0 :: kt) = isWordA (kt.getLastD k0) := by
  induction kt generalizing k0 with
  | nil => rfl
  | cons k1 kt' ih =>
    rw [show wordLastOpt (k0 :: k1 :: kt') = wordLastOpt (k1 :: kt') by
        simp [wordLastOpt, List.getLast?_cons_cons]]
    rw [ih k1, List.getLastD_cons]

/-- The master absence lemma: under the decidable side conditions,
substituting `R` for the key `k0 :: kt` leaves no word-bounded
case-insensitive occurrence of `K` — neither one of the substituted key
itself, nor a new one when `K` was absent from the input. -/
theorem subst_absent (K : List Char) (k0 : Char) (kt R : List Char)
    (hsc : SideCond K (k0 :: kt) R = true) :
    ∀ n l pw, l.length ≤ n →
      (K = k0 :: kt ∨ ¬hasMatch K pw l) →
      ¬hasMatch K pw (substAux k0 kt R pw l) := by
  simp only [SideCond, Bool.and_eq_true] at hsc
  obtain ⟨⟨⟨⟨⟨⟨⟨⟨⟨⟨⟨h1, h2⟩, h3⟩, h4⟩, h5⟩, h6⟩, h7⟩, h8⟩, h9⟩, h10⟩, h11⟩, h12⟩ := hsc
  have hKne : K ≠ [] := by
    intro he
    rw [he] at h1
    simp at h1
  have hRne : R ≠ [] := by
    intro he
    rw [he] at h3
    simp at h3
  have hwlast : isWordA (kt.getLastD k0) = true := by
    rw [← wordLastOpt_cons]
    exact h7
  simp only [condInside, List.all_eq_true] at h9
  simp only [condSufPre, List.all_eq_true] at h10
  simp only [condPreSuf, List.all_eq_true] at h11
  simp only [condSpan, List.all_eq_true] at h12
  intro n
  induction n with
  | zero =>
    intro l pw hl _
    have hnil : l = [] := List.eq_nil_of_length_eq_zero (Nat.le_zero.mp hl)
    subst hnil
    simp only [substAux]
    exact not_hasMatch_nil2 K hKne pw
  | succ n ihn =>
    intro l pw hl hyp
    rcases substAux_decomp k0 kt R (n + 1) l pw hl with
      ⟨heq, hno⟩ | ⟨pre, m, rest, hsplit, hmlen, hmci, hpre, hpost, hmin, hout⟩
    · rw [heq]
      rcases hyp with hKeq | hyp
      · subst hKeq
        exact hno
      · exact hyp
    · rw [hout, hwlast]
      intro hmatch
      have hmne : m ≠ [] := by
        intro he
        rw [he] at hmlen
        simp at hmlen
      have hrestlen : rest.length ≤ n := by
        have hll : l.length = pre.length + (m.length + (rest.length)) := by
          rw [hsplit]
          simp [List.length_append]
        have hm1 : 1 ≤ m.length := by
          rw [hmlen]
          simp
        omega
      rcases hasMatch_append_elim K (pre ++ R) pw _ hmatch with
        ⟨p1, p2, hsplit2, hp2ne, hhm⟩ | hm
      · rcases List.append_eq_append_iff.mp hsplit2 with ⟨pa, hp1, hR⟩ | ⟨pc, hpre2, hp2⟩
        · -- the kept match starts inside the replacement copy
          obtain ⟨hpw1, hciK, _⟩ := hhm
          rw [hp1] at hpw1
          have htake : R.take pa.length = pa := by
            rw [hR, List.take_left]
          have hpreR : wordLastOpt (R.take pa.length) = false := by
            rw [htake]
            cases hpa : pa with
            | nil => rfl
            | cons x xs =>
              rw [← hpa]
              rw [lastW_append, lastW_of_ne_nil _ pa (by rw [hpa]; simp)] at hpw1
              exact hpw1
          have hdropR : R.drop pa.length = p2 := by
            rw [hR, List.drop_left]
          have hlenR : R.length = pa.length + p2.length := by
            rw [hR]
            simp
          by_cases hKp2 : K.length ≤ p2.length
          · have hciKp2 : ciMatches K p2 = true := by
              rw [ciMatches_append, List.take_of_length_le hKp2,
                List.drop_of_length_le hKp2] at hciK
              simp only [ciMatches, Bool.and_eq_true] at hciK
              exact hciK.1
            have hmem : pa.length ∈ List.range (R.length + 1) :=
              List.mem_range.mpr (by omega)
            have hcond := h9 pa.length hmem
            rw [hdropR] at hcond
            simp [hpreR, hciKp2] at hcond
          · push_neg at hKp2
            have hp2S : ciMatches (K.take p2.length) p2 = true := by
              rw [ciMatches_append] at hciK
              simp only [Bool.and_eq_true] at hciK
              exact hciK.1
            have hp2pos : 0 < p2.length := List.length_pos.mpr hp2ne
            have hmem : pa.length ∈ List.range R.length :=
              List.mem_range.mpr (by omega)
            have hcond := h10 pa.length hmem
            have hRlen : R.length - pa.length = p2.length := by omega
            rw [hRlen, hdropR] at hcond
            simp [hpreR, hKp2, hp2S] at hcond
        · -- the kept match starts inside the copied prefix
          obtain ⟨hpw1, hciK, hpostK⟩ := hhm
          rw [hp2] at hciK hpostK
          rw [List.append_assoc] at hciK hpostK
          rcases Nat.lt_trichotomy K.length pc.length with hlt | heqlen | hgt
          · -- strictly inside the copied characters: transfer to the input
            have hciKpc : ciMatches K pc = true := by
              rw [ciMatches_append, List.take_of_length_le (le_of_lt hlt),
                List.drop_of_length_le (le_of_lt hlt)] at hciK
              simp only [ciMatches, Bool.and_eq_true] at hciK
              exact hciK.1
            have hne2 : pc.drop K.length ≠ [] := by
              intro he
              have hh : (pc.drop K.length).length = pc.length - K.length := by
                simp
              rw [he] at hh
              simp at hh
              omega
            have horig : headMatch K (lastW pw p1) (pc ++ (m ++ rest)) := by
              refine ⟨hpw1, ?_, ?_⟩
              · rw [ciMatches_append, List.take_of_length_le (le_of_lt hlt),
                  List.drop_of_length_le (le_of_lt hlt)]
                simp [ciMatches, hciKpc]
              · rw [List.drop_append_eq_append_drop,
                  head?_append_left _ _ hne2]
                rw [List.drop_append_eq_append_drop,
                  head?_append_left _ _ hne2] at hpostK
                exact hpostK
            rcases hyp with hKeq | hyp
            · have hpcne : pc ≠ [] := by
                intro he
                rw [he] at hlt
                simp at hlt
              apply hmin p1 pc hpre2 hpcne
              rw [← hKeq, List.append_assoc]
              exact horig
            · apply hyp
              have hlform : l = p1 ++ (pc ++ (m ++ rest)) := by
                rw [hsplit, hpre2]
                simp [List.append_assoc]
              rw [hlform]
              exact hasMatch_at K p1 pw _ horig
          · -- ends exactly where the replacement copy starts
            have hpcne : pc ≠ [] := by
              intro he
              rw [he] at heqlen
              simp at heqlen
              exact hKne heqlen
            have hciKpc : ciMatches K pc = true := by
              rw [ciMatches_append, List.take_of_length_le (le_of_eq heqlen),
                List.drop_of_length_le (le_of_eq heqlen)] at hciK
              simp only [ciMatches, Bool.and_eq_true] at hciK
              exact hciK.1
            have hwl : wordLastOpt pc = true := by
              rw [← ciMatches_wordLast K pc hciKpc heqlen]
              exact h5
            have hwl2 : wordLastOpt pc = false := by
              have hh := hpre
              rw [hpre2, lastW_append, lastW_of_ne_nil _ pc hpcne] at hh
              exact hh
            rw [hwl] at hwl2
            simp at hwl2
          · -- crosses into the replacement copy
            have hKa : wordLastOpt (K.take pc.length) = false := by
              cases hpc : pc with
              | nil => rfl
              | cons x xs =>
                rw [← hpc]
                have hpcne : pc ≠ [] := by
                  rw [hpc]
                  simp
                have h1' : ciMatches (K.take pc.length) pc = true := by
                  rw [ciMatches_append] at hciK
                  simp only [Bool.and_eq_true] at hciK
                  exact hciK.1
                have hlen1 : (K.take pc.length).length = pc.length := by
                  rw [List.length_take]
                  omega
                rw [ciMatches_wordLast (K.take pc.length) pc h1' hlen1]
                have hh := hpre
                rw [hpre2, lastW_append, lastW_of_ne_nil _ pc hpcne] at hh
                exact hh
            have hXci : ciMatches (K.drop pc.length) (R ++ (substAux k0 kt R true rest)) = true := by
              rw [ciMatches_append] at hciK
              simp only [Bool.and_eq_true] at hciK
              exact hciK.2
            have hXlen : (K.drop pc.length).length = K.length - pc.length := by
              simp
            by_cases hXR : K.length - pc.length ≤ R.length
            · have hXle : (K.drop pc.length).length ≤ R.length := by
                rw [hXlen]
                exact hXR
              have hXR2 : ciMatches (K.drop pc.length) R = true := by
                rw [ciMatches_append, List.take_of_length_le hXle,
                  List.drop_of_length_le hXle] at hXci
                simp only [ciMatches, Bool.and_eq_true] at hXci
                exact hXci.1
              by_cases ha0 : pc.length = 0
              · have hciKR : ciMatches K R = true := by
                  rw [ha0, List.drop_zero] at hXR2
                  exact hXR2
                have hcond := h9 0 (List.mem_range.mpr (by omega))
                simp [wordLastOpt, hciKR] at hcond
              · have ha1 : 1 ≤ pc.length := by omega
                have hcond := h11 pc.length (List.mem_range.mpr hgt)
                simp [ha1, hKa, hXR2] at hcond
            · push_neg at hXR
              have hsplit3 : ciMatches ((K.drop pc.length).take R.length) R = true
                  ∧ ciMatches ((K.drop pc.length).drop R.length)
                      (substAux k0 kt R true rest) = true := by
                rw [ciMatches_append] at hXci
                simpa [Bool.and_eq_true] using hXci
              have hlen3 : ((K.drop pc.length).take R.length).length = R.length := by
                rw [List.length_take]
                omega
              have hciR : ciMatches R (K.drop pc.length) = true := by
                apply ciMatches_extend R (K.drop pc.length) (by rw [hXlen]; omega)
                rw [ciMatches_flip R _ hlen3.symm]
                exact hsplit3.1
              by_cases ha0 : pc.length = 0
              · have h00 : ciMatches (K.take R.length) R = true := by
                  have h01 := hsplit3.1
                  rw [ha0, List.drop_zero] at h01
                  exact h01
                have hRpos : 0 < R.length := List.length_pos.mpr hRne
                have hRK : R.length < K.length := by omega
                have hcond := h10 0 (List.mem_range.mpr hRpos)
                simp [wordLastOpt, h00, hRK] at hcond
              · have ha1 : 1 ≤ pc.length := by omega
                have haRK : pc.length + R.length < K.length := by omega
                have hcond := h12 pc.length (List.mem_range.mpr hgt)
                simp [ha1, haRK, hKa, hciR] at hcond
      · -- the match lies in the substituted tail: induction
        rw [lastW_append, lastW_of_ne_nil _ R hRne, h8] at hm
        have habs : K = k0 :: kt ∨ ¬hasMatch K true rest := by
          rcases hyp with hKeq | hyp
          · exact Or.inl hKeq
          · right
            intro hr
            apply hyp
            rw [hsplit]
            apply hasMatch_append_intro
            rw [lastW_append, lastW_of_ne_nil _ m hmne]
            rw [show wordLastOpt m = true by
              rw [← ciMatches_wordLast (k0 :: kt) m hmci hmlen.symm]
              exact h7]
            exact hr
        exact ihn rest true hrestlen habs hm

end Resume

namespace Resume

/-- Helper: substitution of the empty text is empty. -/
theorem substAux_nil (k0 : Char) (kt repl : List Char) (pw : Bool) :
    substAux k0 kt repl pw [] = [] := by
  simp only [substAux]

/-- Helper: substitution never empties a non-empty text when the
replacement is non-empty. -/
theorem substAux_ne_nil (k0 : Char) (kt repl : List Char) (hr : repl ≠ [])
    (pw : Bool) (c : Char) (cs : List Char) :
    substAux k0 kt repl pw (c :: cs) ≠ [] := by
  simp only [substAux]
  by_cases hB : (!pw && ciMatches (k0 :: kt) (c :: cs)
      && optNonWord ((cs.drop kt.length).head?)) = true
  · rw [if_pos hB]
    intro he
    rcases List.append_eq_nil.mp he with ⟨h1, _⟩
    exact hr h1
  · rw [if_neg hB]
    intro he
    cases he

/-- Helper: the first character of a substitution output is the first
character of the input or of the replacement. -/
theorem substAux_head (k0 : Char) (kt repl : List Char) (hr : repl ≠ [])
    (pw : Bool) (l : List Char) :
    (substAux k0 kt repl pw l).head? = l.head?
    ∨ (substAux k0 kt repl pw l).head? = repl.head? := by
  cases l with
  | nil =>
    left
    rw [substAux_nil]
  | cons c cs =>
    simp only [substAux]
    by_cases hB : (!pw && ciMatches (k0 :: kt) (c :: cs)
        && optNonWord ((cs.drop kt.length).head?)) = true
    · rw [if_pos hB]
      exact Or.inr (head?_append_left repl _ hr)
    · rw [if_neg hB]
      exact Or.inl rfl

/-- Helper: the last character of a substitution output is the last
character of the input or of the replacement. -/
theorem substAux_last (k0 : Char) (kt repl : List Char) (hr : repl ≠ []) :
    ∀ n l pw, l.length ≤ n →
      (substAux k0 kt repl pw l).getLast? = l.getLast?
      ∨ (substAux k0 kt repl pw l).getLast? = repl.getLast? := by
  intro n
  induction n with
  | zero =>
    intro l pw hl
    have : l = [] := List.eq_nil_of_length_eq_zero (Nat.le_zero.mp hl)
    subst this
    left
    rw [substAux_nil]
  | succ n ih =>
    intro l pw hl
    match l with
    | [] =>
      left
      rw [substAux_nil]
    | c :: cs =>
      simp only [substAux]
      by_cases hB : (!pw && ciMatches (k0 :: kt) (c :: cs)
          && optNonWord ((cs.drop kt.length).head?)) = true
      · rw [if_pos hB]
        have hrest : (cs.drop kt.length).length ≤ n := by
          simp only [List.length_cons] at hl
          simp only [List.length_drop]
          omega
        by_cases hS : substAux k0 kt repl (isWordA (kt.getLastD k0))
            (cs.drop kt.length) = []
        · rw [hS, List.append_nil]
          exact Or.inr rfl
        · rw [List.getLast?_append_of_ne_nil _ hS]
          rcases ih (cs.drop kt.length) (isWordA (kt.getLastD k0)) hrest
            with h1 | h1
          · rw [h1]
            by_cases hrd : cs.drop kt.length = []
            · rw [hrd] at hS
              exact absurd (substAux_nil k0 kt repl _) hS
            · left
              have hdec : c :: cs
                  = (c :: cs).take (kt.length + 1) ++ cs.drop kt.length := by
                conv_lhs => rw [← List.take_append_drop (kt.length + 1) (c :: cs)]
                rfl
              conv_rhs => rw [hdec]
              rw [List.getLast?_append_of_ne_nil _ hrd]
          · exact Or.inr h1
      · rw [if_neg hB]
        have hcs : cs.length ≤ n := by
          simp only [List.length_cons] at hl
          omega
        by_cases hS : substAux k0 kt repl (isWordA c) cs = []
        · rw [hS]
          cases hcc : cs with
          | nil => exact Or.inl rfl
          | cons d ds =>
            rw [hcc] at hS
            exact absurd hS (substAux_ne_nil k0 kt repl hr _ d ds)
        · have hcons : (c :: substAux k0 kt repl (isWordA c) cs).getLast?
              = (substAux k0 kt repl (isWordA c) cs).getLast? := by
            rw [show c :: substAux k0 kt repl (isWordA c) cs
                = [c] ++ substAux k0 kt repl (isWordA c) cs from rfl]
            rw [List.getLast?_append_of_ne_nil _ hS]
          rw [hcons]
          rcases ih cs (isWordA c) hcs with h1 | h1
          · have hcsne : cs ≠ [] := by
              intro he
              rw [he] at hS
              exact hS (substAux_nil k0 kt repl _)
            rw [h1]
            left
            rw [show c :: cs = [c] ++ cs from rfl]
            rw [List.getLast?_append_of_ne_nil _ hcsne]
          · exact Or.inr h1

/-- Helper: a list of non-whitespace characters has no adjacent
whitespace pair. -/
theorem chain_of_nonspace (r : List Char)
    (h : ∀ c ∈ r, isSpaceA c = false) : List.Chain' Rsp r := by
  induction r with
  | nil => exact List.chain'_nil
  | cons a t ih =>
    rw [List.chain'_cons']
    refine ⟨?_, ih (fun c hc => h c (List.mem_cons_of_mem a hc))⟩
    intro y _
    intro hp
    have := h a (List.mem_cons_self a t)
    rw [this] at hp
    cases hp.1

end Resume

namespace Resume

/-- Helper: substituting a whitespace-free replacement preserves the
no-adjacent-whitespace invariant. -/
theorem substAux_chain (k0 : Char) (kt repl : List Char) (hr : repl ≠ [])
    (hrsp : ∀ c ∈ repl, isSpaceA c = false) :
    ∀ n l pw, l.length ≤ n → List.Chain' Rsp l →
      List.Chain' Rsp (substAux k0 kt repl pw l) := by
  intro n
  induction n with
  | zero =>
    intro l pw hl _
    have : l = [] := List.eq_nil_of_length_eq_zero (Nat.le_zero.mp hl)
    subst this
    rw [substAux_nil]
    exact List.chain'_nil
  | succ n ih =>
    intro l pw hl hch
    match l with
    | [] =>
      rw [substAux_nil]
      exact List.chain'_nil
    | c :: cs =>
      simp only [substAux]
      by_cases hB : (!pw && ciMatches (k0 :: kt) (c :: cs)
          && optNonWord ((cs.drop kt.length).head?)) = true
      · rw [if_pos hB]
        rw [List.chain'_append]
        have hrest : (cs.drop kt.length).length ≤ n := by
          simp only [List.length_cons] at hl
          simp only [List.length_drop]
          omega
        have hchrest : List.Chain' Rsp (cs.drop kt.length) := by
          have h1 : List.Chain' Rsp cs := (List.chain'_cons'.mp hch).2
          exact h1.suffix (List.drop_suffix _ _)
        refine ⟨chain_of_nonspace repl hrsp, ih _ _ hrest hchrest, ?_⟩
        intro x hx y _
        have hxmem : x ∈ repl := List.mem_of_getLast?_eq_some hx
        intro hp
        have hns := hrsp x hxmem
        rw [hns] at hp
        cases hp.1
      · rw [if_neg hB]
        rw [List.chain'_cons']
        have hcs : cs.length ≤ n := by
          simp only [List.length_cons] at hl
          omega
        have hchcs : List.Chain' Rsp cs := (List.chain'_cons'.mp hch).2
        refine ⟨?_, ih cs (isWordA c) hcs hchcs⟩
        intro y hy
        have hy2 : (substAux k0 kt repl (isWordA c) cs).head? = some y := hy
        rcases substAux_head k0 kt repl hr (isWordA c) cs with hh | hh
        · apply (List.chain'_cons'.mp hch).1
          rw [hh] at hy2
          exact hy2
        · rw [hh] at hy2
          have hymem : y ∈ repl := List.mem_of_mem_head? hy2
          intro hp
          have hns := hrsp y hymem
          rw [hns] at hp
          cases hp.2

/-- Helper: after a whitespace run the collapse scan starts with a
non-whitespace character. -/
theorem collapse_true_head (l : List Char) :
    ∀ c, (collapseWSAux true l).head? = some c → isSpaceA c = false := by
  induction l with
  | nil =>
    intro c h
    cases h
  | cons a cs ih =>
    intro c h
    simp only [collapseWSAux] at h
    by_cases ha : isSpaceA a = true
    · rw [if_pos ha] at h
      simp only [if_true] at h
      exact ih c h
    · rw [if_neg ha] at h
      simp only [List.head?_cons, Option.some.injEq] at h
      subst h
      revert ha
      cases isSpaceA a <;> simp

/-- Helper: collapsed text has no two adjacent whitespace characters. -/
theorem collapse_chain (l : List Char) :
    ∀ b, List.Chain' Rsp (collapseWSAux b l) := by
  induction l with
  | nil =>
    intro b
    exact List.chain'_nil
  | cons a cs ih =>
    intro b
    simp only [collapseWSAux]
    by_cases ha : isSpaceA a = true
    · rw [if_pos ha]
      cases b with
      | true =>
        rw [if_pos rfl]
        exact ih true
      | false =>
        rw [if_neg (by simp)]
        rw [List.chain'_cons']
        refine ⟨?_, ih true⟩
        intro y hy
        have hy2 : (collapseWSAux true cs).head? = some y := hy
        have hns := collapse_true_head cs y hy2
        intro hp
        rw [hns] at hp
        cases hp.2
    · rw [if_neg ha]
      rw [List.chain'_cons']
      refine ⟨?_, ih false⟩
      intro y _
      intro hp
      exact absurd hp.1 ha

/-- Helper: on text that starts with a non-whitespace character the two
collapse-scan states agree. -/
theorem collapse_state_eq (x : List Char)
    (h : ∀ c, x.head? = some c → isSpaceA c = false) :
    collapseWSAux true x = collapseWSAux false x := by
  cases x with
  | nil => rfl
  | cons d ds =>
    have hd := h d rfl
    simp only [collapseWSAux]
    rw [if_neg (by rw [hd]; simp), if_neg (by rw [hd]; simp)]

/-- Helper: whitespace collapse is the identity on text with no
adjacent whitespace pair in which every whitespace character is a plain
space. -/
theorem collapse_eq_self (x : List Char)
    (h1 : ∀ c ∈ x, isSpaceA c = true → c = ' ')
    (h2 : List.Chain' Rsp x) : collapseWSAux false x = x := by
  induction x with
  | nil => rfl
  | cons a cs ih =>
    have htail := ih (fun c hc hs => h1 c (List.mem_cons_of_mem a hc) hs)
      (List.chain'_cons'.mp h2).2
    simp only [collapseWSAux]
    by_cases ha : isSpaceA a = true
    · rw [if_pos ha, if_neg (by simp)]
      have ha2 : a = ' ' := h1 a (List.mem_cons_self a cs) ha
      have hhead : ∀ c, cs.head? = some c → isSpaceA c = false := by
        intro c hc
        have hR := (List.chain'_cons'.mp h2).1 c hc
        revert hR
        simp only [Rsp]
        cases hcs : isSpaceA c with
        | false =>
          intro _
          rfl
        | true =>
          intro hR
          exact absurd ⟨ha, rfl⟩ hR
      rw [collapse_state_eq cs hhead, htail, ha2]
    · rw [if_neg ha, htail]

end Resume

namespace Resume

/-- Helper: one correction step preserves the normal form (the
replacement strings are non-empty, whitespace-free and free of curly
quotes). -/
theorem corrStep_good (t : List Char) (kr : List Char × List Char)
    (hne : kr.2 ≠ []) (hsp : ∀ c ∈ kr.2, isSpaceA c = false)
    (hq : ∀ c ∈ kr.2, quoteMap c = c)
    (hg : GoodText t) : GoodText (corrStep t kr) := by
  obtain ⟨hch, hhd, hlt, hsb, hqt⟩ := hg
  unfold corrStep
  by_cases ho : occursWord kr.1 t = true
  · rw [if_pos ho]
    cases hk : kr.1 with
    | nil =>
      exact ⟨hch, hhd, hlt, hsb, hqt⟩
    | cons k0 kt =>
      have hsub : substWord (k0 :: kt) kr.2 t = substAux k0 kt kr.2 false t := rfl
      rw [hsub]
      refine ⟨?_, ?_, ?_, ?_, ?_⟩
      · exact substAux_chain k0 kt kr.2 hne hsp t.length t false (le_refl _) hch
      · intro c hc
        rcases substAux_head k0 kt kr.2 hne false t with hh | hh
        · rw [hh] at hc
          exact hhd c hc
        · rw [hh] at hc
          exact hsp c (List.mem_of_mem_head? hc)
      · intro c hc
        rcases substAux_last k0 kt kr.2 hne t.length t false (le_refl _)
          with hh | hh
        · rw [hh] at hc
          exact hlt c hc
        · rw [hh] at hc
          exact hsp c (List.mem_of_getLast?_eq_some hc)
      · intro c hc hs
        rcases substAux_chars k0 kt kr.2 t.length t false c (le_refl _) hc
          with h1 | h1
        · have h2 := hsp c h1
          rw [hs] at h2
          cases h2
        · exact hsb c h1 hs
      · intro c hc
        rcases substAux_chars k0 kt kr.2 t.length t false c (le_refl _) hc
          with h1 | h1
        · exact hq c h1
        · exact hqt c h1
  · rw [if_neg ho]
    exact ⟨hch, hhd, hlt, hsb, hqt⟩

/-- Helper: the correction fold preserves the normal form. -/
theorem corrFold_good (pairs : List (List Char × List Char))
    (hrep : ∀ kr ∈ pairs, kr.2 ≠ [] ∧ (∀ c ∈ kr.2, isSpaceA c = false)
      ∧ (∀ c ∈ kr.2, quoteMap c = c)) :
    ∀ t, GoodText t → GoodText (pairs.foldl corrStep t) := by
  induction pairs with
  | nil =>
    intro t h
    exact h
  | cons kr rest ih =>
    intro t h
    simp only [List.foldl_cons]
    apply ih (fun x hx => hrep x (List.mem_cons_of_mem kr hx))
    obtain ⟨h1, h2, h3⟩ := hrep kr (List.mem_cons_self kr rest)
    exact corrStep_good t kr h1 h2 h3 h

/-- Helper: the corrected text keeps the normal form. -/
theorem applyCorrections_good (t : List Char) (h : GoodText t) :
    GoodText (applyCorrections t) := by
  unfold applyCorrections
  exact corrFold_good OCR_CORRECTIONS (by decide) t h

/-- Helper: one correction step establishes absence of its own key and,
under the side conditions, preserves absence of any key. -/
theorem corrStep_absent (K : List Char) (kr : List Char × List Char)
    (hsc : SideCond K kr.1 kr.2 = true)
    (t : List Char) (h : K = kr.1 ∨ ¬hasMatch K false t) :
    ¬hasMatch K false (corrStep t kr) := by
  unfold corrStep
  cases hk : kr.1 with
  | nil =>
    rw [hk] at hsc
    simp [SideCond] at hsc
  | cons k0 kt =>
    rw [hk] at h
    by_cases ho : occursWord (k0 :: kt) t = true
    · rw [if_pos ho]
      have hsub : substWord (k0 :: kt) kr.2 t = substAux k0 kt kr.2 false t := rfl
      rw [hsub]
      rw [hk] at hsc
      exact subst_absent K k0 kt kr.2 hsc t.length t false (le_refl _) h
    · rw [if_neg ho]
      rcases h with hKeq | h2
      · intro hm
        apply ho
        have hoc : occursWord (k0 :: kt) t = occursAux k0 kt false t := rfl
        rw [hoc]
        rw [hKeq] at hm
        exact (occursAux_iff k0 kt t false).mpr hm
      · exact h2

/-- Helper: a correction fold preserves absence of a key satisfying the
side conditions against every pair of the fold. -/
theorem corrFold_absent (K : List Char)
    (pairs : List (List Char × List Char))
    (hall : ∀ kr ∈ pairs, SideCond K kr.1 kr.2 = true) :
    ∀ t, ¬hasMatch K false t →
      ¬hasMatch K false (pairs.foldl corrStep t) := by
  induction pairs with
  | nil =>
    intro t h
    exact h
  | cons kr rest ih =>
    intro t h
    simp only [List.foldl_cons]
    apply ih (fun x hx => hall x (List.mem_cons_of_mem kr hx))
    exact corrStep_absent K kr (hall kr (List.mem_cons_self kr rest)) t (Or.inr h)

/-- Helper: after its own correction step, a key stays absent through
the remaining steps. -/
theorem corrSplit_absent (K RK : List Char)
    (before after : List (List Char × List Char))
    (hscK : SideCond K K RK = true)
    (hall : ∀ kr ∈ after, SideCond K kr.1 kr.2 = true) (t : List Char) :
    ¬hasMatch K false ((before ++ (K, RK) :: after).foldl corrStep t) := by
  rw [List.foldl_append, List.foldl_cons]
  apply corrFold_absent K after hall
  exact corrStep_absent K (K, RK) hscK _ (Or.inl rfl)

/-- Helper: the correction fold is the identity when no key has a
word-bounded occurrence. -/
theorem corrFold_id (pairs : List (List Char × List Char)) (v : List Char)
    (h : ∀ kr ∈ pairs, ¬hasMatch kr.1 false v) :
    pairs.foldl corrStep v = v := by
  induction pairs with
  | nil => rfl
  | cons kr rest ih =>
    simp only [List.foldl_cons]
    have ho : occursWord kr.1 v = false := by
      cases hk : kr.1 with
      | nil => rfl
      | cons k0 kt =>
        rw [← Bool.not_eq_true]
        intro hoc
        apply h kr (List.mem_cons_self kr rest)
        rw [hk]
        have hoc2 : occursAux k0 kt false v = true := hoc
        exact (occursAux_iff k0 kt v false).mp hoc2
    have hstep : corrStep v kr = v := by
      unfold corrStep
      rw [ho]
      simp
    rw [hstep]
    exact ih (fun x hx => h x (List.mem_cons_of_mem kr hx))

end Resume

namespace Resume

/-- Helper: no OCR-corrections key has a word-bounded case-insensitive
occurrence in the corrected text (its own step removes it, and the side
conditions show the later steps cannot reintroduce it). -/
theorem applyCorrections_absent (u : List Char) :
    ∀ kr ∈ OCR_CORRECTIONS, ¬hasMatch kr.1 false (applyCorrections u) := by
  intro kr hkr
  unfold applyCorrections OCR_CORRECTIONS
  simp only [OCR_CORRECTIONS, List.mem_cons, List.not_mem_nil, or_false] at hkr
  rcases hkr with h | h | h | h | h | h <;> subst h
  · exact corrSplit_absent (("Gexanple").data) (("example").data)
      []
      [(("exanple").data, ("example").data),
       (("Gmail. com").data, ("gmail.com").data),
       (("linkedin. con").data, ("linkedin.com").data),
       (("github. con").data, ("github.com").data),
       (("dot com").data, (".com").data)]
      (by decide) (by decide) u
  · exact corrSplit_absent (("exanple").data) (("example").data)
      [(("Gexanple").data, ("example").data)]
      [(("Gmail. com").data, ("gmail.com").data),
       (("linkedin. con").data, ("linkedin.com").data),
       (("github. con").data, ("github.com").data),
       (("dot com").data, (".com").data)]
      (by decide) (by decide) u
  · exact corrSplit_absent (("Gmail. com").data) (("gmail.com").data)
      [(("Gexanple").data, ("example").data),
       (("exanple").data, ("example").data)]
      [(("linkedin. con").data, ("linkedin.com").data),
       (("github. con").data, ("github.com").data),
       (("dot com").data, (".com").data)]
      (by decide) (by decide) u
  · exact corrSplit_absent (("linkedin. con").data) (("linkedin.com").data)
      [(("Gexanple").data, ("example").data),
       (("exanple").data, ("example").data),
       (("Gmail. com").data, ("gmail.com").data)]
      [(("github. con").data, ("github.com").data),
       (("dot com").data, (".com").data)]
      (by decide) (by decide) u
  · exact corrSplit_absent (("github. con").data) (("github.com").data)
      [(("Gexanple").data, ("example").data),
       (("exanple").data, ("example").data),
       (("Gmail. com").data, ("gmail.com").data),
       (("linkedin. con").data, ("linkedin.com").data)]
      [(("dot com").data, (".com").data)]
      (by decide) (by decide) u
  · exact corrSplit_absent (("dot com").data) ((".com").data)
      [(("Gexanple").data, ("example").data),
       (("exanple").data, ("example").data),
       (("Gmail. com").data, ("gmail.com").data),
       (("linkedin. con").data, ("linkedin.com").data),
       (("github. con").data, ("github.com").data)]
      []
      (by decide) (by decide) u

/-- Helper: running the corrections twice equals running them once. -/
theorem applyCorrections_idem (u : List Char) :
    applyCorrections (applyCorrections u) = applyCorrections u := by
  have habs := applyCorrections_absent u
  unfold applyCorrections
  apply corrFold_id
  intro kr hkr
  exact habs kr hkr

/-- Helper: `Rsp` transfers to reversed text. -/
theorem chain_rsp_reverse (l : List Char) (h : List.Chain' Rsp l) :
    List.Chain' Rsp l.reverse := by
  rw [List.chain'_reverse]
  refine h.imp ?_
  intro a b hab
  intro hp
  exact hab ⟨hp.2, hp.1⟩

/-- Helper: stripping preserves the no-adjacent-whitespace chain. -/
theorem chain_pyStrip (l : List Char) (h : List.Chain' Rsp l) :
    List.Chain' Rsp (pyStrip l) := by
  unfold pyStrip
  apply chain_rsp_reverse
  refine List.Chain'.suffix ?_ (List.dropWhile_suffix _)
  apply chain_rsp_reverse
  exact List.Chain'.suffix h (List.dropWhile_suffix _)

/-- Helper: the quote normalization preserves the chain. -/
theorem chain_quoteMap (l : List Char) (h : List.Chain' Rsp l) :
    List.Chain' Rsp (l.map quoteMap) := by
  rw [List.chain'_map]
  refine h.imp ?_
  intro a b hab
  intro hp
  rw [quoteMap_space] at hp
  rw [quoteMap_space] at hp
  exact hab hp

/-- Helper: the first three stages of `clean_ocr_text` (collapse, quote
map, strip) produce the normal form. -/
theorem firstPass_good (raw : List Char) :
    GoodText (pyStrip ((collapseWS raw).map quoteMap)) := by
  have hch : List.Chain' Rsp ((collapseWS raw).map quoteMap) :=
    chain_quoteMap _ (collapse_chain raw false)
  have hedge := edgeOk_pyStrip ((collapseWS raw).map quoteMap)
  refine ⟨chain_pyStrip _ hch, hedge.1, hedge.2, ?_, ?_⟩
  · intro c hc hs
    have hc2 := mem_pyStrip _ c hc
    rcases List.mem_map.mp hc2 with ⟨d, hd, hdc⟩
    subst hdc
    rw [quoteMap_space] at hs
    have hd2 : d = ' ' := by
      rcases collapseWSAux_chars raw false d hd with h1 | ⟨_, h2⟩
      · exact h1
      · rw [h2] at hs
        cases hs
    rw [hd2]
    decide
  · intro c hc
    have hc2 := mem_pyStrip _ c hc
    rcases List.mem_map.mp hc2 with ⟨d, _, hdc⟩
    subst hdc
    exact quoteMap_idem d

/-- Helper: mapping a function that fixes every element of a list is
the identity on it. -/
theorem map_fix (f : Char → Char) (l : List Char)
    (h : ∀ c ∈ l, f c = c) : l.map f = l := by
  induction l with
  | nil => rfl
  | cons a t ih =>
    simp only [List.map_cons]
    rw [h a (List.mem_cons_self a t),
      ih (fun c hc => h c (List.mem_cons_of_mem a hc))]

/-- Helper: `clean_ocr_text` is idempotent at the character-list
level. -/
theorem clean_ocr_idem_data (raw : List Char) :
    applyCorrections (pyStrip ((collapseWS
      (applyCorrections (pyStrip ((collapseWS raw).map quoteMap)))).map quoteMap))
    = applyCorrections (pyStrip ((collapseWS raw).map quoteMap)) := by
  have hgood := applyCorrections_good _ (firstPass_good raw)
  obtain ⟨hch, hhd, hlt, hsb, hqt⟩ := hgood
  have h1 : collapseWS (applyCorrections (pyStrip ((collapseWS raw).map quoteMap)))
      = applyCorrections (pyStrip ((collapseWS raw).map quoteMap)) :=
    collapse_eq_self _ hsb hch
  rw [h1]
  have h2 : (applyCorrections (pyStrip ((collapseWS raw).map quoteMap))).map quoteMap
      = applyCorrections (pyStrip ((collapseWS raw).map quoteMap)) :=
    map_fix _ _ hqt
  rw [h2]
  have h3 : pyStrip (applyCorrections (pyStrip ((collapseWS raw).map quoteMap)))
      = applyCorrections (pyStrip ((collapseWS raw).map quoteMap)) :=
    pyStrip_eq_self _ ⟨hhd, hlt⟩
  rw [h3]
  exact applyCorrections_idem _

set_option maxHeartbeats 1000000 in
/-- Helper: the character data of the OCR normalizer's output. -/
theorem clean_ocr_text_data (s : String) :
    (clean_ocr_text s).data
      = applyCorrections (pyStrip ((collapseWS s.data).map quoteMap)) := by
  unfold clean_ocr_text
  rfl

/-- Helper: `clean_ocr_text` is idempotent. -/
theorem clean_ocr_text_idem (s : String) :
    clean_ocr_text (clean_ocr_text s) = clean_ocr_text s := by
  apply String.ext
  rw [clean_ocr_text_data (clean_ocr_text s), clean_ocr_text_data s]
  exact clean_ocr_idem_data s.data

end Resume

/-- C4: the text normalizer is idempotent — for every input string,
applying the normalizer to its own output yields the same string as
applying it once, both for the plain normalization `clean_text` and for
the OCR-correction variant `clean_ocr_text`. -/
theorem C4_normalizer_idem :
    (∀ s : String, Utils.clean_text (Utils.clean_text s) = Utils.clean_text s)
    ∧ (∀ s : String,
        Resume.clean_ocr_text (Resume.clean_ocr_text s)
          = Resume.clean_ocr_text s) := by
  constructor
  · exact Utils.clean_text_idem
  · exact Resume.clean_ocr_text_idem
